import Mathlib

/-!
Verification of the distgo artifact-cleanup engine
(`vendor/github.com/palantir/godel/apps/distgo/cmd/clean/clean.go`) and of the
manual dister (`dister/manual.go`).

Filesystem paths are modelled as lists of components (an absolute path
`/a/b` is `["a", "b"]`; the filesystem root `/` is `[]`).  A filesystem
state is a pair of lists: the paths that exist as regular files and the
paths that exist as directories.  Go's `path.Dir` is `List.dropLast`,
`path.Join(d, name)` is `d ++ [name]`, and the string form used by
`sort.Strings` and `strings.Contains` is the slash-joined character list
produced by `pathChars`.
-/

namespace Distgo

abbrev Path := List String

/-- The character-list form of a path, as Go's `path.Join` produces it:
`pathChars ["a","b"] = "/a/b".toList`, `pathChars [] = "".toList`. -/
def pathChars (p : Path) : List Char :=
  p.foldl (fun acc c => acc ++ '/' :: c.toList) []

/-- `strings.Contains hay needle` on character lists (substring test). -/
def charListContains : List Char → List Char → Bool
  | hay, needle =>
    needle.isPrefixOf hay ||
      match hay with
      | [] => false
      | _ :: t => charListContains t needle

/-- Byte-wise "less or equal" of `sort.Strings`, on character lists. -/
def charListLE : List Char → List Char → Bool
  | [], _ => true
  | _ :: _, [] => false
  | a :: as, b :: bs => if a < b then true else if b < a then false else charListLE as bs

/-- A filesystem state: which paths exist as regular files and which as
directories.  Mirrors what `os.Stat` / `ioutil.ReadDir` / `os.Remove` /
`os.RemoveAll` can observe and mutate in `clean.go`. -/
structure FS where
  files : List Path
  dirs : List Path
  deriving DecidableEq

/-- `os.Stat` succeeds: the path exists (as a file or as a directory). -/
def FS.mem (fs : FS) (p : Path) : Prop := p ∈ fs.files ∨ p ∈ fs.dirs

instance (fs : FS) (p : Path) : Decidable (fs.mem p) := by
  unfold FS.mem; infer_instance

/-- The immediate entries of directory `d`, as full paths
(`ioutil.ReadDir` joined back with `path.Join(d, name)`). -/
def FS.children (fs : FS) (d : Path) : List Path :=
  (fs.files ++ fs.dirs).filter fun q =>
    d.isPrefixOf q && q.length == d.length + 1

/-- `os.RemoveAll p`: removes `p` and everything below it; never fails. -/
def FS.removeAll (fs : FS) (p : Path) : FS :=
  { files := fs.files.filter fun q => ! p.isPrefixOf q
    dirs := fs.dirs.filter fun q => ! p.isPrefixOf q }

/-- `os.Remove p`: unlinks a file, or removes an empty directory; fails
(`none`) on a non-empty directory or a missing path. -/
def FS.osRemove (fs : FS) (p : Path) : Option FS :=
  if p ∈ fs.files then
    some { fs with files := fs.files.filter fun q => ! (q == p) }
  else if p ∈ fs.dirs then
    if (fs.children p).isEmpty then
      some { fs with dirs := fs.dirs.filter fun q => ! (q == p) }
    else none
  else none

/-- The per-path plan tag from `clean.go` (`type pathInfo struct`). -/
structure PathInfo where
  rootDir : Path
  isDir : Bool
  deriving DecidableEq

/-- The running state of `Run` (lines 117-188 of `clean.go`): the
filesystem, the `removedPaths` set, the sequence of paths reported
(dry-run mode) or actually deleted (real mode) in order, and the
pending error (`none` = no error so far). -/
structure RunState where
  fs : FS
  removed : List Path
  out : List Path
  err : Option String
  deriving DecidableEq

/-- The (possibly virtually filtered) listing that `removeDirIfEmpty`
checks for emptiness: in dry-run mode, entries already present in
`removedPaths` are dropped (lines 203-214 of `clean.go`). -/
def effListing (dryRun : Bool) (s : RunState) (dirPath : Path) : List Path :=
  if dryRun then (s.fs.children dirPath).filter fun q => ! s.removed.contains q
  else s.fs.children dirPath

/-- `removeDirIfEmpty` (lines 194-230 of `clean.go`).  Returns the
`removed` flag and the updated state.  `ioutil.ReadDir` on a path that
exists but is a regular file fails, which the Go code surfaces as an
error. -/
def removeDirIfEmpty (dryRun : Bool) (s : RunState) (dirPath : Path) : Bool × RunState :=
  if ¬ s.fs.mem dirPath then (false, s)
  else if dirPath ∈ s.fs.files then
    (false, { s with err := some "failed to read directory" })
  else if (effListing dryRun s dirPath).isEmpty then
    (true, { s with fs := if dryRun then s.fs else s.fs.removeAll dirPath
                    removed := dirPath :: s.removed })
  else (false, s)

/-- The upward-cascade loop of `Run` (lines 157-178).  `fuel` bounds the
number of iterations; `Run` supplies `d.length + 1`, which is enough for
every terminating Go execution (each iteration moves to the parent
directory; Go's `path.Dir "/" = "/"` can only be re-entered in a
pathological dry run that virtually removes `/` itself, where the Go
loop does not terminate at all). -/
def cascadeFrom (dryRun : Bool) (rootDir : Path) : Nat → RunState → Path → RunState
  | 0, s, _ => s
  | fuel + 1, s, d =>
    if d = rootDir then s
    else if ¬ s.fs.mem d then s
    else if (removeDirIfEmpty dryRun s d).2.err.isSome then (removeDirIfEmpty dryRun s d).2
    else if (removeDirIfEmpty dryRun s d).1 then
      cascadeFrom dryRun rootDir fuel
        { (removeDirIfEmpty dryRun s d).2 with
            out := (removeDirIfEmpty dryRun s d).2.out ++ [d] }
        d.dropLast
    else (removeDirIfEmpty dryRun s d).2

/-- The leaf-removal step (lines 132-147 of `clean.go`): in dry-run
mode report the path; in real mode, if it exists, delete it
(`os.RemoveAll` when flagged a directory, `os.Remove` otherwise). -/
def leafStep (dryRun : Bool) (s : RunState) (p : Path) (i : PathInfo) : RunState :=
  if dryRun then { s with out := s.out ++ [p] }
  else if s.fs.mem p then
    if i.isDir then { s with fs := s.fs.removeAll p, out := s.out ++ [p] }
    else
      match s.fs.osRemove p with
      | some fs' => { s with fs := fs', out := s.out ++ [p] }
      | none => { s with err := some "failed to remove file" }
  else s

/-- The root-handling step (lines 179-186 of `clean.go`): attempt
`removeDirIfEmpty` on the entry's root directory. -/
def rootStep (dryRun : Bool) (s : RunState) (root : Path) : RunState :=
  if (removeDirIfEmpty dryRun s root).2.err.isSome then (removeDirIfEmpty dryRun s root).2
  else if (removeDirIfEmpty dryRun s root).1 then
    { (removeDirIfEmpty dryRun s root).2 with
        out := (removeDirIfEmpty dryRun s root).2.out ++ [root] }
  else (removeDirIfEmpty dryRun s root).2

/-- One iteration of the main loop of `Run` (lines 130-187): leaf
removal (or dry-run report), marking in `removedPaths`, the
`strings.Contains` consistency check, the upward cascade, and the root
`removeDirIfEmpty`. -/
def processEntry (dryRun : Bool) (s : RunState) (e : Path × PathInfo) : RunState :=
  -- leaf removal (lines 132-147)
  let s1 := leafStep dryRun s e.1 e.2
  if s1.err.isSome then s1
  else
    -- mark removed (line 148)
    let s2 := { s1 with removed := e.1 :: s1.removed }
    -- consistency check (lines 150-153): substring containment on strings
    if ¬ charListContains (pathChars e.1) (pathChars e.2.rootDir) then
      { s2 with err := some "root dir path does not occur" }
    else
      -- upward cascade (lines 157-178), starting at path.Dir(p)
      let s3 := cascadeFrom dryRun e.2.rootDir (e.1.dropLast.length + 1) s2 e.1.dropLast
      if s3.err.isSome then s3
      else rootStep dryRun s3 e.2.rootDir

/-- Insertion into a string-sorted plan list (models `sort.Strings`). -/
def insertEntry (x : Path × PathInfo) : List (Path × PathInfo) → List (Path × PathInfo)
  | [] => [x]
  | y :: ys =>
    if charListLE (pathChars x.1) (pathChars y.1) then x :: y :: ys
    else y :: insertEntry x ys

/-- `sort.Strings` applied to the plan's paths (lines 117-121). -/
def sortPlan (l : List (Path × PathInfo)) : List (Path × PathInfo) :=
  l.foldr insertEntry []

/-- The main loop of `Run` over the sorted plan; an error aborts the walk
(`return err` in Go). -/
def runFrom (dryRun : Bool) : RunState → List (Path × PathInfo) → RunState
  | s, [] => s
  | s, e :: es =>
    if s.err.isSome then s else runFrom dryRun (processEntry dryRun s e) es

/-- The execute phase of `Run` (lines 117-188 of `clean.go`): sort the
plan paths, then process each in order, starting from a fresh
`removedPaths` set. -/
def runExecute (dryRun : Bool) (fs : FS) (plan : List (Path × PathInfo)) : RunState :=
  runFrom dryRun ⟨fs, [], [], none⟩ (sortPlan plan)

/-- An OS/architecture pair (`pkg/osarch.OSArch`); its `String()` form is
`os-arch`. -/
structure OSArch where
  os : String
  arch : String
  deriving DecidableEq

def OSArch.str (o : OSArch) : String := o.os ++ "-" ++ o.arch

/-- The last path component (`FileInfo.Name()` of a child path). -/
def lastName (p : Path) : String := p.getLastD ""

/-- The inversion `osArchToProducts` built by `cleanBinOutput`
(lines 234-244): the products that expect a binary under the os-arch
directory named `s`. -/
def osArchToProducts (products : List (String × List OSArch)) (s : String) : List String :=
  (products.filter fun pr => pr.2.any fun oa => oa.str == s).map (·.1)

/-- `cleanBinOutput` (lines 232-285 of `clean.go`): walk
`outputDir/<tag-dir>/<os-arch-dir>/<binary>` and collect the binaries
belonging to the requested products.  A failing `ioutil.ReadDir` on
`outputDir` (the directory is absent, or is a regular file) is absorbed:
the function returns an empty result and no error.  The inner `ReadDir`
calls are on paths just listed as directories, which in this model never
fail, so the error component is always `none` here. -/
def cleanBinOutput (fs : FS) (outputDir : Path) (products : List (String × List OSArch)) :
    Except String (List Path) :=
  if outputDir ∉ fs.dirs then .ok []
  else .ok <|
    ((fs.children outputDir).filter fun c => decide (c ∈ fs.dirs)).flatMap fun tagDir =>
      ((fs.children tagDir).filter fun c => decide (c ∈ fs.dirs)).flatMap fun osArchDir =>
        let ps := osArchToProducts products (lastName osArchDir)
        if ps.isEmpty then []
        else (fs.children osArchDir).filter fun b => ps.contains (lastName b)

/-- The distribution part of the plan-building loop of `Run`
(lines 94-115): for one distribution, read the dist output directory; if
it cannot be read (`err != nil`: absent, or a regular file), skip the
distribution silently (`continue`).  Otherwise every entry whose name
matches one of the regexp matchers (derived from the product name and
the rendered artifact names -- abstracted here as boolean predicates) is
planned for removal, tagged with the dist output directory as its root
and its own is-directory flag. -/
def distClean (fs : FS) (distOutputDir : Path) (matchers : List (String → Bool)) :
    List (Path × PathInfo) :=
  if distOutputDir ∉ fs.dirs then []
  else (fs.children distOutputDir).filterMap fun c =>
    if matchers.any fun m => m (lastName c) then
      some (c, ⟨distOutputDir, decide (c ∈ fs.dirs)⟩)
    else none

/-- Well-formedness of a filesystem state: every proper ancestor of an
existing path is an existing directory, and no path is simultaneously a
file and a directory.  Quantification over `q.inits` keeps the predicate
decidable. -/
def WF (fs : FS) : Prop :=
  (∀ q ∈ fs.files ++ fs.dirs, ∀ r ∈ q.inits, r ≠ q → r ∈ fs.dirs) ∧
    ∀ q ∈ fs.files, q ∉ fs.dirs

instance (fs : FS) : Decidable (WF fs) := by
  unfold WF; infer_instance

/-- `x` has no ancestor (or itself) recorded in the removed set: the
path is untouched by the removals recorded so far. -/
def Free (rem : List Path) (x : Path) : Prop := ∀ m ∈ rem, ¬ m <+: x

/-- The real-mode filesystem `fsR` is the starting filesystem `fs0`
minus the subtrees of the recorded removals: this is the simulation
invariant tying a real run to the virtual state of a dry run. -/
def Sim (fs0 : FS) (rem : List Path) (fsR : FS) : Prop :=
  (∀ q, q ∈ fsR.files ↔ q ∈ fs0.files ∧ Free rem q) ∧
    ∀ q, q ∈ fsR.dirs ↔ q ∈ fs0.dirs ∧ Free rem q

/-- The bundle of facts carried through the parity induction: the real
state `sR` and dry state `sD` have equal outputs and removed sets, both
are error-free, the dry filesystem is untouched, the real filesystem
simulates the removals, the removed set grew only by paths strictly
below `root`, and every path in `Q` is still untouched. -/
def ParityOk (fs0 : FS) (Q rem : List Path) (root : Path) (sR sD : RunState) : Prop :=
  sR.out = sD.out ∧ sR.err = none ∧ sD.err = none ∧ sD.fs = fs0 ∧
  sR.removed = sD.removed ∧ Sim fs0 sR.removed sR.fs ∧
  (∃ L, sR.removed = L ++ rem ∧ ∀ m ∈ L, root <+: m ∧ m ≠ root) ∧
  ∀ q ∈ Q, Free sR.removed q

/-- The facts a parity step for a whole plan entry establishes: equal
outputs and removed sets, no errors, dry filesystem untouched, real
filesystem simulated, and all paths in `Q` still untouched. -/
def EntryOk (fs0 : FS) (Q : List Path) (sR sD : RunState) : Prop :=
  sR.out = sD.out ∧ sR.err = none ∧ sD.err = none ∧ sD.fs = fs0 ∧
  sR.removed = sD.removed ∧ Sim fs0 sR.removed sR.fs ∧
  ∀ q ∈ Q, Free sR.removed q

/-- `fsa` is a sub-filesystem of `fsb`: every file and directory of
`fsa` is one of `fsb`.  A real run only ever shrinks the filesystem. -/
def FSle (fsa fsb : FS) : Prop :=
  (∀ q, q ∈ fsa.files → q ∈ fsb.files) ∧ ∀ q, q ∈ fsa.dirs → q ∈ fsb.dirs

/-! ### The manual dister (`dister/manual.go`) -/

/-- The outcome of `os.Stat` on the declared artifact path: success with
an is-directory flag, a not-exist error, or any other error (for
example, permission denied on a parent directory). -/
inductive StatResult where
  | ok (isDir : Bool)
  | notExist
  | otherErr
  deriving DecidableEq

namespace manualDister

/-- `manualDister.Artifacts` (lines 58-64 of `dister/manual.go`): the
single declared artifact name, with the configured extension appended
when it is non-empty. -/
def Artifacts (extension : String) (renderedNameTemplate : String) : List String :=
  [if extension == "" then renderedNameTemplate
   else renderedNameTemplate ++ "." ++ extension]

/-- `manualDister.GenerateDistArtifacts` (lines 71-89 of
`dister/manual.go`).  The `stat` argument models `os.Stat` on the
artifact path.  The result is `none` when the Go code dereferences the
nil `FileInfo` (a runtime panic): this happens exactly when `os.Stat`
fails with an error that is not an is-not-exist error, because the code
only guards with `os.IsNotExist(err)` before calling `fi.IsDir()`. -/
def GenerateDistArtifacts (extension : String) (renderedNameTemplate : String)
    (stat : String → StatResult) : Option (Except String Unit) :=
  let artifactPaths := Artifacts extension renderedNameTemplate
  if artifactPaths.length != 1 then
    some (.error "manual distribution must produce a single artifact")
  else
    match stat (artifactPaths.headD "") with
    | .notExist => some (.error "expected output does not exist")
    | .ok d =>
      if d then some (.error "output is a directory")
      else some (.ok ())
    | .otherErr => none

end manualDister

/-! ### Concrete scenarios -/

/-- The filesystem of the cascade-correctness scenario:
`root/a/b/c/file` plus the unrelated `root/a/other`. -/
def fsCascade : FS :=
  ⟨[["root", "a", "b", "c", "file"], ["root", "a", "other"]],
    [[], ["root"], ["root", "a"], ["root", "a", "b"], ["root", "a", "b", "c"]]⟩

/-- The single-leaf plan of the cascade-correctness scenario. -/
def planCascade : List (Path × PathInfo) :=
  [(["root", "a", "b", "c", "file"], ⟨["root"], false⟩)]

/-- A filesystem where the plan below breaks dry-run/real parity:
`/r/d` contains only `f`. -/
def fsNested : FS := ⟨[["r", "d", "f"]], [[], ["r"], ["r", "d"]]⟩

/-- A plan whose paths are nested (`/r/d` is an ancestor of `/r/d/f`). -/
def planNested : List (Path × PathInfo) :=
  [(["r", "d"], ⟨["r"], true⟩), (["r", "d", "f"], ⟨["r"], false⟩)]

/-- A filesystem for the boundary-violation scenario: the file `/a/b/c`
with ancestors `/a/b`, `/a`, `/`. -/
def fsAside : FS := ⟨[["a", "b", "c"]], [[], ["a"], ["a", "b"]]⟩

/-- A plan entry whose path `/a/b/c` does not lie under its declared
root `/b`, yet whose joined string `"/a/b/c"` contains `"/b"` as a
substring, so the consistency check of `Run` passes. -/
def planAside : List (Path × PathInfo) := [(["a", "b", "c"], ⟨["b"], false⟩)]

/-- A filesystem holding the single file `/x`. -/
def fsStray : FS := ⟨[["x"]], [[]]⟩

/-- A plan entry whose path `/x` neither lies under nor contains its
declared root `/q`. -/
def planStray : List (Path × PathInfo) := [(["x"], ⟨["q"], false⟩)]

/-- A filesystem for the idempotence scenario: `/r/a` contains `f1` and
the directory `g`, which contains `f2`. -/
def fsTwoRoots : FS :=
  ⟨[["r", "a", "f1"], ["r", "a", "g", "f2"]],
    [[], ["r"], ["r", "a"], ["r", "a", "g"]]⟩

/-- A plan with two entries whose declared roots are nested: `/r/a/f1`
under root `/r`, and `/r/a/g/f2` under root `/r/a/g`. -/
def planTwoRoots : List (Path × PathInfo) :=
  [(["r", "a", "f1"], ⟨["r"], false⟩),
   (["r", "a", "g", "f2"], ⟨["r", "a", "g"], false⟩)]

/-! ### Theorems -/

/-! #### Helper lemmas on paths and prefixes -/

theorem isPrefixOf_iff {α : Type} [BEq α] [LawfulBEq α] {l₁ l₂ : List α} :
    l₁.isPrefixOf l₂ = true ↔ l₁ <+: l₂ := by
  induction l₁ generalizing l₂ with
  | nil => simp [List.isPrefixOf]
  | cons a as ih =>
    cases l₂ with
    | nil => simp [List.isPrefixOf]
    | cons b bs =>
      simp only [List.isPrefixOf, Bool.and_eq_true, beq_iff_eq, ih,
        List.cons_prefix_cons]

theorem dropLast_isPre (l : Path) : l.dropLast <+: l := by
  rcases eq_or_ne l [] with rfl | h
  · exact ⟨[], rfl⟩
  · exact ⟨[l.getLast h], List.dropLast_append_getLast h⟩

theorem proper_pre_length {r q : Path} (h : r <+: q) (hne : r ≠ q) :
    r.length < q.length := by
  rcases h with ⟨t, rfl⟩
  rcases t with _ | ⟨a, t⟩
  · simp at hne
  · simp

theorem pre_dropLast_of_proper {r d : Path} (h : r <+: d) (hne : r ≠ d) :
    r <+: d.dropLast := by
  rcases h with ⟨t, rfl⟩
  rcases t with _ | ⟨a, t⟩
  · simp at hne
  · refine ⟨(a :: t).dropLast, ?_⟩
    rw [List.dropLast_append_of_ne_nil]
    simp

theorem Free_nil (x : Path) : Free [] x := fun m hm => absurd hm (List.not_mem_nil m)

theorem Free_cons {m : Path} {rem : List Path} {x : Path} :
    Free (m :: rem) x ↔ ¬ m <+: x ∧ Free rem x := by
  constructor
  · exact fun h =>
      ⟨h m (List.mem_cons_self m rem), fun m' hm' => h m' (List.mem_cons_of_mem m hm')⟩
  · rintro ⟨h1, h2⟩ m' hm'
    rcases List.mem_cons.mp hm' with rfl | hm'
    · exact h1
    · exact h2 m' hm'

theorem Free_of_pre {rem : List Path} {x r : Path} (h : Free rem x) (hr : r <+: x) :
    Free rem r := fun m hm hmr => h m hm (hmr.trans hr)

theorem Free_not_mem {rem : List Path} {x : Path} (h : Free rem x) : x ∉ rem :=
  fun hx => h x hx List.prefix_rfl

theorem WF.closed {fs : FS} (h : WF fs) {q r : Path} (hq : fs.mem q) (hr : r <+: q)
    (hne : r ≠ q) : r ∈ fs.dirs := by
  refine h.1 q (List.mem_append.mpr ?_) r ((List.mem_inits _ _).mpr hr) hne
  rcases hq with hq | hq
  · exact Or.inl hq
  · exact Or.inr hq

theorem Sim.refl0 (fs0 : FS) : Sim fs0 [] fs0 :=
  ⟨fun q => ⟨fun h => ⟨h, Free_nil q⟩, fun h => h.1⟩,
   fun q => ⟨fun h => ⟨h, Free_nil q⟩, fun h => h.1⟩⟩

theorem Sim.mem_iff {fs0 : FS} {rem : List Path} {fsR : FS} (h : Sim fs0 rem fsR)
    (q : Path) : fsR.mem q ↔ fs0.mem q ∧ Free rem q := by
  rw [FS.mem, FS.mem, h.1 q, h.2 q, or_and_right]

theorem mem_children_iff {fs : FS} {d q : Path} :
    q ∈ fs.children d ↔ fs.mem q ∧ d <+: q ∧ q.length = d.length + 1 := by
  simp only [FS.children, List.mem_filter, List.mem_append, FS.mem, Bool.and_eq_true,
    isPrefixOf_iff, beq_iff_eq]

theorem Sim.children_mem {fs0 : FS} {rem : List Path} {fsR : FS} (h : Sim fs0 rem fsR)
    (d q : Path) : q ∈ fsR.children d ↔ q ∈ fs0.children d ∧ Free rem q := by
  rw [mem_children_iff, mem_children_iff, Sim.mem_iff h]
  tauto

theorem exists_child_toward {d q : Path} (h : d <+: q) (hne : d ≠ q) :
    ∃ c, d <+: c ∧ c.length = d.length + 1 ∧ c <+: q := by
  rcases h with ⟨t, rfl⟩
  rcases t with _ | ⟨a, t⟩
  · simp at hne
  · exact ⟨d ++ [a], ⟨[a], rfl⟩, by simp, ⟨t, by simp⟩⟩

theorem isEmpty_iff_not_mem {l : List Path} : l.isEmpty = true ↔ ∀ x, x ∉ l := by
  rw [List.isEmpty_iff]
  exact ⟨fun h x => h ▸ List.not_mem_nil x, List.eq_nil_iff_forall_not_mem.mpr⟩

theorem runState_eta_of_err_none {s : RunState} (h : s.err = none) :
    s = ⟨s.fs, s.removed, s.out, none⟩ := by
  rw [← h]

theorem mem_removeAll_files {fs : FS} {d q : Path} :
    q ∈ (fs.removeAll d).files ↔ q ∈ fs.files ∧ ¬ d <+: q := by
  rw [FS.removeAll]
  simp only [List.mem_filter, Bool.not_eq_true', ← isPrefixOf_iff, Bool.not_eq_true]

theorem mem_removeAll_dirs {fs : FS} {d q : Path} :
    q ∈ (fs.removeAll d).dirs ↔ q ∈ fs.dirs ∧ ¬ d <+: q := by
  rw [FS.removeAll]
  simp only [List.mem_filter, Bool.not_eq_true', ← isPrefixOf_iff, Bool.not_eq_true]

theorem FSle.rfl (fs : FS) : FSle fs fs := ⟨fun _ h => h, fun _ h => h⟩

theorem FSle.trans {a b c : FS} (h1 : FSle a b) (h2 : FSle b c) : FSle a c :=
  ⟨fun q hq => h2.1 q (h1.1 q hq), fun q hq => h2.2 q (h1.2 q hq)⟩

theorem FSle.mem {a b : FS} (h : FSle a b) {q : Path} (hq : a.mem q) : b.mem q := by
  rcases hq with hq | hq
  · exact Or.inl (h.1 q hq)
  · exact Or.inr (h.2 q hq)

theorem FSle_removeAll (fs : FS) (d : Path) : FSle (fs.removeAll d) fs :=
  ⟨fun q hq => (mem_removeAll_files.mp hq).1, fun q hq => (mem_removeAll_dirs.mp hq).1⟩

theorem FSle_osRemove {fs fs' : FS} {p : Path} (h : fs.osRemove p = some fs') :
    FSle fs' fs := by
  rw [FS.osRemove] at h
  split at h
  · injection h with h
    subst h
    exact ⟨fun q hq => List.mem_of_mem_filter hq, fun q hq => hq⟩
  · split at h
    · split at h
      · injection h with h
        subst h
        exact ⟨fun q hq => hq, fun q hq => List.mem_of_mem_filter hq⟩
      · cases h
    · cases h

theorem rdie_fsle (dryRun : Bool) (s : RunState) (d : Path) :
    FSle (removeDirIfEmpty dryRun s d).2.fs s.fs := by
  rw [removeDirIfEmpty]
  split
  · exact FSle.rfl _
  · split
    · exact FSle.rfl _
    · split
      · cases dryRun
        · exact FSle_removeAll s.fs d
        · exact FSle.rfl _
      · exact FSle.rfl _

theorem cascade_fsle (dryRun : Bool) (root : Path) :
    ∀ (fuel : Nat) (s : RunState) (d : Path),
      FSle (cascadeFrom dryRun root fuel s d).fs s.fs := by
  intro fuel
  induction fuel with
  | zero => exact fun s d => FSle.rfl _
  | succ n ih =>
    intro s d
    rw [cascadeFrom]
    split
    · exact FSle.rfl _
    · split
      · exact FSle.rfl _
      · split
        · exact rdie_fsle dryRun s d
        · split
          · exact (ih _ _).trans (rdie_fsle dryRun s d)
          · exact rdie_fsle dryRun s d

theorem leafStep_fsle (dryRun : Bool) (s : RunState) (p : Path) (i : PathInfo) :
    FSle (leafStep dryRun s p i).fs s.fs := by
  rw [leafStep]
  split
  · exact FSle.rfl _
  · split
    · split
      · exact FSle_removeAll s.fs p
      · split
        · rename_i fs' hos
          exact FSle_osRemove hos
        · exact FSle.rfl _
    · exact FSle.rfl _

theorem rootStep_fsle (dryRun : Bool) (s : RunState) (root : Path) :
    FSle (rootStep dryRun s root).fs s.fs := by
  rw [rootStep]
  split
  · exact rdie_fsle dryRun s root
  · split
    · exact rdie_fsle dryRun s root
    · exact rdie_fsle dryRun s root

theorem processEntry_fsle (dryRun : Bool) (s : RunState) (e : Path × PathInfo) :
    FSle (processEntry dryRun s e).fs s.fs := by
  simp only [processEntry]
  split
  · exact leafStep_fsle dryRun s e.1 e.2
  · split
    · exact leafStep_fsle dryRun s e.1 e.2
    · split
      · exact (cascade_fsle dryRun e.2.rootDir _ _ _).trans
          (leafStep_fsle dryRun s e.1 e.2)
      · exact ((rootStep_fsle dryRun _ e.2.rootDir).trans
          (cascade_fsle dryRun e.2.rootDir _ _ _)).trans
          (leafStep_fsle dryRun s e.1 e.2)

theorem runFrom_fsle (dryRun : Bool) :
    ∀ (es : List (Path × PathInfo)) (s : RunState),
      FSle (runFrom dryRun s es).fs s.fs := by
  intro es
  induction es with
  | nil => exact fun s => FSle.rfl _
  | cons e es ih =>
    intro s
    rw [runFrom]
    split
    · exact FSle.rfl _
    · exact (ih _).trans (processEntry_fsle dryRun s e)

theorem WF_iff {fs : FS} : WF fs ↔
    ((∀ q, fs.mem q → ∀ r, r <+: q → r ≠ q → r ∈ fs.dirs) ∧
     ∀ q ∈ fs.files, q ∉ fs.dirs) := by
  constructor
  · rintro ⟨h1, h2⟩
    refine ⟨?_, h2⟩
    intro q hq r hr hne
    refine h1 q (List.mem_append.mpr ?_) r ((List.mem_inits _ _).mpr hr) hne
    rcases hq with hq | hq
    · exact Or.inl hq
    · exact Or.inr hq
  · rintro ⟨h1, h2⟩
    refine ⟨?_, h2⟩
    intro q hq r hr hne
    refine h1 q ?_ r ((List.mem_inits _ _).mp hr) hne
    rcases List.mem_append.mp hq with hq | hq
    · exact Or.inl hq
    · exact Or.inr hq

theorem WF_removeAll {fs : FS} (h : WF fs) (d : Path) : WF (fs.removeAll d) := by
  rw [WF_iff]
  constructor
  · intro q hq r hr hne
    have hq' : fs.mem q := (FSle_removeAll fs d).mem hq
    have hrd : r ∈ fs.dirs := WF.closed h hq' hr hne
    rw [mem_removeAll_dirs]
    refine ⟨hrd, ?_⟩
    intro hdr
    rcases hq with hq | hq
    · exact (mem_removeAll_files.mp hq).2 (hdr.trans hr)
    · exact (mem_removeAll_dirs.mp hq).2 (hdr.trans hr)
  · intro q hqf hqd
    exact h.2 q (mem_removeAll_files.mp hqf).1 (mem_removeAll_dirs.mp hqd).1

theorem WF_osRemove {fs fs' : FS} {p : Path} (h : WF fs) (hos : fs.osRemove p = some fs') :
    WF fs' := by
  rw [FS.osRemove] at hos
  split at hos
  · injection hos with hos
    subst hos
    rw [WF_iff]
    constructor
    · intro q hq r hr hne
      have hq' : fs.mem q := by
        rcases hq with hq | hq
        · exact Or.inl (List.mem_of_mem_filter hq)
        · exact Or.inr hq
      exact WF.closed h hq' hr hne
    · intro q hqf hqd
      exact h.2 q (List.mem_of_mem_filter hqf) hqd
  · split at hos
    · split at hos
      · rename_i hemp
        injection hos with hos
        subst hos
        rw [WF_iff]
        constructor
        · intro q hq r hr hne
          have hq' : fs.mem q := by
            rcases hq with hq | hq
            · exact Or.inl hq
            · exact Or.inr (List.mem_of_mem_filter hq)
          have hrd : r ∈ fs.dirs := WF.closed h hq' hr hne
          show r ∈ fs.dirs.filter _
          simp only [List.mem_filter, Bool.not_eq_true', beq_eq_false_iff_ne]
          refine ⟨hrd, ?_⟩
          rintro rfl
          obtain ⟨c, hpc, hclen, hcq⟩ := exists_child_toward hr hne
          have hcmem : fs.mem c := by
            rcases eq_or_ne c q with heq | hcne
            · exact heq ▸ hq'
            · exact Or.inr (WF.closed h hq' hcq hcne)
          exact (isEmpty_iff_not_mem.mp hemp c)
            (mem_children_iff.mpr ⟨hcmem, hpc, hclen⟩)
        · intro q hqf hqd
          exact h.2 q hqf (List.mem_of_mem_filter hqd)
      · cases hos
    · cases hos

theorem WF_rdie (dryRun : Bool) {s : RunState} (h : WF s.fs) (d : Path) :
    WF (removeDirIfEmpty dryRun s d).2.fs := by
  rw [removeDirIfEmpty]
  split
  · exact h
  · split
    · exact h
    · split
      · cases dryRun
        · exact WF_removeAll h d
        · exact h
      · exact h

theorem WF_cascade (dryRun : Bool) (root : Path) :
    ∀ (fuel : Nat) (s : RunState) (d : Path), WF s.fs →
      WF (cascadeFrom dryRun root fuel s d).fs := by
  intro fuel
  induction fuel with
  | zero => exact fun s d h => h
  | succ n ih =>
    intro s d h
    rw [cascadeFrom]
    split
    · exact h
    · split
      · exact h
      · split
        · exact WF_rdie dryRun h d
        · split
          · exact ih _ _ (WF_rdie dryRun h d)
          · exact WF_rdie dryRun h d

theorem WF_leafStep (dryRun : Bool) {s : RunState} (h : WF s.fs) (p : Path)
    (i : PathInfo) : WF (leafStep dryRun s p i).fs := by
  rw [leafStep]
  split
  · exact h
  · split
    · split
      · exact WF_removeAll h p
      · split
        · rename_i fs' hos
          exact WF_osRemove h hos
        · exact h
    · exact h

theorem WF_rootStep (dryRun : Bool) {s : RunState} (h : WF s.fs) (root : Path) :
    WF (rootStep dryRun s root).fs := by
  rw [rootStep]
  split
  · exact WF_rdie dryRun h root
  · split
    · exact WF_rdie dryRun h root
    · exact WF_rdie dryRun h root

theorem WF_processEntry (dryRun : Bool) {s : RunState} (h : WF s.fs)
    (e : Path × PathInfo) : WF (processEntry dryRun s e).fs := by
  have h1 := WF_leafStep dryRun h e.1 e.2
  have h3 := WF_cascade dryRun e.2.rootDir (e.1.dropLast.length + 1)
    { leafStep dryRun s e.1 e.2 with removed := e.1 :: (leafStep dryRun s e.1 e.2).removed }
    e.1.dropLast h1
  simp only [processEntry]
  split
  · exact h1
  · split
    · exact h1
    · split
      · exact h3
      · exact WF_rootStep dryRun h3 e.2.rootDir

theorem WF_runFrom (dryRun : Bool) :
    ∀ (es : List (Path × PathInfo)) (s : RunState), WF s.fs →
      WF (runFrom dryRun s es).fs := by
  intro es
  induction es with
  | nil => exact fun s h => h
  | cons e es ih =>
    intro s h
    rw [runFrom]
    split
    · exact h
    · exact ih _ (WF_processEntry dryRun h e)

theorem pre_of_pre_length_le {l₁ l₂ l₃ : Path} (h1 : l₁ <+: l₃) (h2 : l₂ <+: l₃)
    (hl : l₁.length ≤ l₂.length) : l₁ <+: l₂ := by
  induction l₁ generalizing l₂ l₃ with
  | nil => exact ⟨l₂, rfl⟩
  | cons a as ih =>
    cases l₂ with
    | nil => simp at hl
    | cons b bs =>
      cases l₃ with
      | nil => exact absurd h1.length_le (by simp)
      | cons c cs =>
        rw [List.cons_prefix_iff] at h1 h2 ⊢
        obtain ⟨rfl, h1⟩ := h1
        obtain ⟨rfl, h2⟩ := h2
        exact ⟨rfl, ih h1 h2 (Nat.succ_le_succ_iff.mp hl)⟩

theorem effListing_false (s : RunState) (d : Path) :
    effListing false s d = s.fs.children d := rfl

theorem effListing_true (s : RunState) (d : Path) :
    effListing true s d = (s.fs.children d).filter fun q => ! s.removed.contains q := rfl

theorem Sim.removeAll_cons {fs0 : FS} {rem : List Path} {fsR : FS} (h : Sim fs0 rem fsR)
    (d : Path) : Sim fs0 (d :: rem) (fsR.removeAll d) :=
  ⟨fun q => by rw [mem_removeAll_files, h.1 q, Free_cons]; tauto,
   fun q => by rw [mem_removeAll_dirs, h.2 q, Free_cons]; tauto⟩

theorem removeDirIfEmpty_out (dryRun : Bool) (s : RunState) (d : Path) :
    (removeDirIfEmpty dryRun s d).2.out = s.out := by
  unfold removeDirIfEmpty
  repeat' split
  all_goals rfl

theorem removeDirIfEmpty_err (dryRun : Bool) (s : RunState) (d : Path)
    (hd : d ∉ s.fs.files) : (removeDirIfEmpty dryRun s d).2.err = s.err := by
  by_cases hm : s.fs.mem d
  · rw [removeDirIfEmpty, if_neg (not_not_intro hm), if_neg hd]
    split <;> rfl
  · rw [removeDirIfEmpty, if_pos hm]

/-- Case analysis of `removeDirIfEmpty` at an existing directory that
is not a regular file: removal happens exactly on an empty (possibly
filtered) listing, recording the directory and deleting it from disk
only in real mode; otherwise nothing changes. -/
theorem rdie_cases (dryRun : Bool) (s : RunState) (dir : Path)
    (hmem : s.fs.mem dir) (hnf : dir ∉ s.fs.files) :
    ((removeDirIfEmpty dryRun s dir).1 = true ↔ effListing dryRun s dir = []) ∧
    ((removeDirIfEmpty dryRun s dir).1 = true →
      (removeDirIfEmpty dryRun s dir).2 =
        { s with fs := if dryRun then s.fs else s.fs.removeAll dir
                 removed := dir :: s.removed }) ∧
    ((removeDirIfEmpty dryRun s dir).1 = false →
      (removeDirIfEmpty dryRun s dir).2 = s) := by
  rw [removeDirIfEmpty, if_neg (not_not_intro hmem), if_neg hnf]
  split
  · rename_i he
    exact ⟨⟨fun _ => List.isEmpty_iff.mp he, fun _ => rfl⟩, fun _ => rfl,
      fun hf => absurd hf (by simp)⟩
  · rename_i he
    refine ⟨⟨fun h => absurd h (by simp), fun h => absurd ?_ he⟩,
      fun h => absurd h (by simp), fun _ => rfl⟩
    rw [h]
    rfl

theorem rdie_err_none {dryRun : Bool} {s : RunState} {d : Path}
    (herr : s.err = none) (hnf : d ∉ s.fs.files) :
    (removeDirIfEmpty dryRun s d).2.err = none := by
  rw [removeDirIfEmpty_err dryRun s d hnf]
  exact herr

theorem rdie_ok_not_file {dryRun : Bool} {s : RunState} {d : Path}
    (hmem : s.fs.mem d)
    (hok : (removeDirIfEmpty dryRun s d).2.err = none) : d ∉ s.fs.files := by
  intro hdf
  rw [removeDirIfEmpty, if_neg (not_not_intro hmem), if_pos hdf] at hok
  simp at hok

/-- A real-mode cascade started below an untouched position never errors
when the start is not a regular file and the filesystem is
well-formed. -/
theorem cascade_no_error (root : Path) :
    ∀ (fuel : Nat) (s : RunState) (d : Path), s.err = none → WF s.fs →
      d ∉ s.fs.files →
      (cascadeFrom false root fuel s d).err = none := by
  intro fuel
  induction fuel with
  | zero => exact fun s d herr _ _ => herr
  | succ n ih =>
    intro s d herr hwf hnf
    rw [cascadeFrom]
    split
    · exact herr
    · split
      · exact herr
      · rename_i hne hmem'
        have hmem : s.fs.mem d := not_not.mp hmem'
        have herr2 : (removeDirIfEmpty false s d).2.err = none := rdie_err_none herr hnf
        rw [if_neg (by rw [herr2]; simp)]
        split
        · rename_i hflag
          obtain ⟨_, htrue, _⟩ := rdie_cases false s d hmem hnf
          have hst := htrue hflag
          apply ih
          · show (removeDirIfEmpty false s d).2.err = none
            exact herr2
          · show WF (removeDirIfEmpty false s d).2.fs
            exact WF_rdie false hwf d
          · show d.dropLast ∉ (removeDirIfEmpty false s d).2.fs.files
            rw [hst]
            intro hf
            obtain ⟨hf1, hf2⟩ := mem_removeAll_files.mp hf
            rcases eq_or_ne d [] with rfl | hdnil
            · exact hf2 ⟨[], rfl⟩
            · exact hwf.2 d.dropLast hf1
                (WF.closed hwf hmem (dropLast_isPre d) (fun hh => by
                  have h1 : d.dropLast.length = d.length - 1 := List.length_dropLast d
                  have h2 : 0 < d.length := List.length_pos.mpr hdnil
                  have h3 : d.dropLast.length = d.length := congrArg List.length hh
                  omega))
        · exact herr2

/-- After a successful real-mode cascade of positive fuel, the start
position is the root or no longer a regular file. -/
theorem cascade_ok_start_not_file (root : Path) (n : Nat) (s : RunState) (d : Path)
    (herr : s.err = none)
    (hok : (cascadeFrom false root (n + 1) s d).err = none) :
    d = root ∨ d ∉ (cascadeFrom false root (n + 1) s d).fs.files := by
  by_cases h1 : d = root
  · exact Or.inl h1
  right
  rw [cascadeFrom] at hok ⊢
  rw [if_neg h1] at hok ⊢
  by_cases h2 : s.fs.mem d
  · rw [if_neg (not_not_intro h2)] at hok ⊢
    by_cases h3 : (removeDirIfEmpty false s d).2.err.isSome = true
    · rw [if_pos h3] at hok
      rw [hok] at h3
      simp at h3
    · rw [if_neg h3] at hok ⊢
      have herr2 : (removeDirIfEmpty false s d).2.err = none :=
        Option.not_isSome_iff_eq_none.mp h3
      have hnf : d ∉ s.fs.files := rdie_ok_not_file h2 herr2
      obtain ⟨_, htrue, hfalse⟩ := rdie_cases false s d h2 hnf
      cases hb : (removeDirIfEmpty false s d).1
      · rw [if_neg (by simp), hfalse hb]
        exact hnf
      · rw [if_pos rfl]
        intro hf
        have hf' := (cascade_fsle false root n _ d.dropLast).1 d hf
        have hf'' : d ∈ (removeDirIfEmpty false s d).2.fs.files := hf'
        rw [htrue hb] at hf''
        exact (mem_removeAll_files.mp hf'').2 List.prefix_rfl
  · rw [if_pos h2] at hok ⊢
    exact fun hf => h2 (Or.inl hf)

theorem cascade_out_mem (root : Path) :
    ∀ (fuel : Nat) (s : RunState) (d : Path),
      ∀ x ∈ (cascadeFrom false root fuel s d).out, x ∈ s.out ∨ s.fs.mem x := by
  intro fuel
  induction fuel with
  | zero => exact fun s d x hx => Or.inl hx
  | succ n ih =>
    intro s d x
    rw [cascadeFrom]
    split
    · exact fun hx => Or.inl hx
    · split
      · exact fun hx => Or.inl hx
      · rename_i hne hmem'
        split
        · intro hx
          rw [removeDirIfEmpty_out] at hx
          exact Or.inl hx
        · split
          · intro hx
            rcases ih _ d.dropLast x hx with hx | hx
            · have hx' : x ∈ (removeDirIfEmpty false s d).2.out ++ [d] := hx
              rw [removeDirIfEmpty_out] at hx'
              rcases List.mem_append.mp hx' with hx' | hx'
              · exact Or.inl hx'
              · simp only [List.mem_singleton] at hx'
                subst hx'
                exact Or.inr (not_not.mp hmem')
            · exact Or.inr ((rdie_fsle false s d).mem hx)
          · intro hx
            rw [removeDirIfEmpty_out] at hx
            exact Or.inl hx

theorem rootStep_out_mem (s : RunState) (root : Path) :
    ∀ x ∈ (rootStep false s root).out, x ∈ s.out ∨ s.fs.mem x := by
  intro x
  rw [rootStep]
  split
  · intro hx
    rw [removeDirIfEmpty_out] at hx
    exact Or.inl hx
  · split
    · rename_i hns hflag
      intro hx
      have hx' : x ∈ (removeDirIfEmpty false s root).2.out ++ [root] := hx
      rw [removeDirIfEmpty_out] at hx'
      rcases List.mem_append.mp hx' with hx' | hx'
      · exact Or.inl hx'
      · simp only [List.mem_singleton] at hx'
        by_cases hm : s.fs.mem root
        · exact Or.inr (by rw [hx']; exact hm)
        · exfalso
          have h2 : removeDirIfEmpty false s root = (false, s) := by
            rw [removeDirIfEmpty, if_pos hm]
          rw [h2] at hflag
          simp at hflag
    · intro hx
      rw [removeDirIfEmpty_out] at hx
      exact Or.inl hx

theorem leafStep_real_out_mem (s : RunState) (p : Path) (i : PathInfo) :
    ∀ x ∈ (leafStep false s p i).out, x ∈ s.out ∨ s.fs.mem x := by
  intro x
  rw [leafStep]
  rw [if_neg (by simp)]
  split
  · rename_i hm
    split
    · intro hx
      rcases List.mem_append.mp hx with hx | hx
      · exact Or.inl hx
      · simp only [List.mem_singleton] at hx
        subst hx
        exact Or.inr hm
    · split
      · intro hx
        rcases List.mem_append.mp hx with hx | hx
        · exact Or.inl hx
        · simp only [List.mem_singleton] at hx
          subst hx
          exact Or.inr hm
      · exact fun hx => Or.inl hx
  · exact fun hx => Or.inl hx

theorem processEntry_real_out_mem (s : RunState) (p : Path) (i : PathInfo) :
    ∀ x ∈ (processEntry false s (p, i)).out, x ∈ s.out ∨ s.fs.mem x := by
  intro x
  simp only [processEntry]
  split
  · exact leafStep_real_out_mem s p i x
  · split
    · exact leafStep_real_out_mem s p i x
    · split
      · intro hx
        rcases cascade_out_mem i.rootDir (p.dropLast.length + 1) _ p.dropLast x hx
          with hx | hx
        · rcases leafStep_real_out_mem s p i x hx with hx | hx
          · exact Or.inl hx
          · exact Or.inr hx
        · exact Or.inr ((leafStep_fsle false s p i).mem hx)
      · intro hx
        rcases rootStep_out_mem _ i.rootDir x hx with hx | hx
        · rcases cascade_out_mem i.rootDir (p.dropLast.length + 1) _ p.dropLast x hx
            with hx | hx
          · rcases leafStep_real_out_mem s p i x hx with hx | hx
            · exact Or.inl hx
            · exact Or.inr hx
          · exact Or.inr ((leafStep_fsle false s p i).mem hx)
        · exact Or.inr (((cascade_fsle false i.rootDir (p.dropLast.length + 1)
            ⟨(leafStep false s p i).fs, p :: (leafStep false s p i).removed,
              (leafStep false s p i).out, (leafStep false s p i).err⟩ p.dropLast).trans
            (leafStep_fsle false s p i)).mem hx)

theorem osRemove_absent {fs fs' : FS} {p : Path} (hwf : WF fs)
    (hos : fs.osRemove p = some fs') : ¬ fs'.mem p := by
  rw [FS.osRemove] at hos
  split at hos
  · rename_i hpf
    injection hos with hos
    subst hos
    rintro (hf | hf)
    · rw [List.mem_filter] at hf
      simp at hf
    · exact hwf.2 p hpf hf
  · rename_i hpnotf
    split at hos
    · split at hos
      · injection hos with hos
        subst hos
        rintro (hf | hf)
        · exact hpnotf hf
        · rw [List.mem_filter] at hf
          simp at hf
      · cases hos
    · cases hos

theorem leafStep_ok_absent {s : RunState} {p : Path} {i : PathInfo} (hwf : WF s.fs)
    (h1 : ¬ (leafStep false s p i).err.isSome = true) :
    ¬ (leafStep false s p i).fs.mem p := by
  rw [leafStep] at h1 ⊢
  rw [if_neg (by simp)] at h1 ⊢
  by_cases hm : s.fs.mem p
  · rw [if_pos hm] at h1 ⊢
    rcases Bool.eq_false_or_eq_true i.isDir with hd | hd
    · rw [if_pos hd]
      rintro (hf | hf)
      · exact (mem_removeAll_files.mp hf).2 List.prefix_rfl
      · exact (mem_removeAll_dirs.mp hf).2 List.prefix_rfl
    · rw [if_neg (by simp [hd])] at h1 ⊢
      cases hos : s.fs.osRemove p
      · rw [hos] at h1
        simp at h1
      · rename_i fs'
        exact osRemove_absent hwf hos
  · rw [if_neg hm]
    exact hm

theorem rootStep_err_none {s : RunState} {root : Path} (herr : s.err = none)
    (hnf : root ∉ s.fs.files) : (rootStep false s root).err = none := by
  have herr2 : (removeDirIfEmpty false s root).2.err = none := rdie_err_none herr hnf
  rw [rootStep, if_neg (by rw [herr2]; simp)]
  split
  · exact herr2
  · exact herr2

theorem rootStep_not_file {s : RunState} {root : Path} (herr : s.err = none)
    (hok : (rootStep false s root).err = none) :
    root ∉ (rootStep false s root).fs.files := by
  by_cases hmem : s.fs.mem root
  · by_cases hnf : root ∈ s.fs.files
    · exfalso
      have h2 : (removeDirIfEmpty false s root).2 =
          { s with err := some "failed to read directory" } := by
        rw [removeDirIfEmpty, if_neg (not_not_intro hmem), if_pos hnf]
      rw [rootStep, h2] at hok
      simp at hok
    · obtain ⟨_, htrue, hfalse⟩ := rdie_cases false s root hmem hnf
      have herr2 : (removeDirIfEmpty false s root).2.err = none := rdie_err_none herr hnf
      rw [rootStep, if_neg (by rw [herr2]; simp)]
      cases hb : (removeDirIfEmpty false s root).1
      · rw [if_neg (by simp), hfalse hb]
        exact hnf
      · rw [if_pos rfl, htrue hb]
        intro hf
        have hf' : root ∈ (s.fs.removeAll root).files := hf
        exact (mem_removeAll_files.mp hf').2 List.prefix_rfl
  · have h2 : removeDirIfEmpty false s root = (false, s) := by
      rw [removeDirIfEmpty, if_pos hmem]
    rw [rootStep, h2, if_neg (by rw [herr]; simp)]
    rw [if_neg (by simp)]
    exact fun hf => hmem (Or.inl hf)

/-- Facts extracted from one successfully processed entry of a real run:
the consistency check passed, the entry path is gone, the cascade start
is the root or not a regular file, and the root is not a regular
file. -/
theorem processEntry_ok_facts {s : RunState} {p : Path} {i : PathInfo}
    (hwf : WF s.fs) (herr : s.err = none)
    (hok : (processEntry false s (p, i)).err = none) :
    charListContains (pathChars p) (pathChars i.rootDir) = true ∧
    ¬ (processEntry false s (p, i)).fs.mem p ∧
    (p.dropLast = i.rootDir ∨ p.dropLast ∉ (processEntry false s (p, i)).fs.files) ∧
    i.rootDir ∉ (processEntry false s (p, i)).fs.files := by
  simp only [processEntry] at hok ⊢
  by_cases h1 : (leafStep false s p i).err.isSome = true
  · rw [if_pos h1] at hok
    rw [hok] at h1
    simp at h1
  · rw [if_neg h1] at hok ⊢
    by_cases h2 : charListContains (pathChars p) (pathChars i.rootDir) = true
    · rw [if_neg (not_not_intro h2)] at hok ⊢
      by_cases h3 : (cascadeFrom false i.rootDir (p.dropLast.length + 1)
          { leafStep false s p i with removed := p :: (leafStep false s p i).removed }
          p.dropLast).err.isSome = true
      · rw [if_pos h3] at hok
        rw [hok] at h3
        simp at h3
      · rw [if_neg h3] at hok ⊢
        refine ⟨h2, ?_, ?_, ?_⟩
        · intro hm
          exact leafStep_ok_absent hwf h1
            (((rootStep_fsle false _ i.rootDir).trans
              (cascade_fsle false i.rootDir (p.dropLast.length + 1)
                { leafStep false s p i with
                    removed := p :: (leafStep false s p i).removed }
                p.dropLast)).mem hm)
        · rcases cascade_ok_start_not_file i.rootDir p.dropLast.length
            { leafStep false s p i with removed := p :: (leafStep false s p i).removed }
            p.dropLast (Option.not_isSome_iff_eq_none.mp h1)
            (Option.not_isSome_iff_eq_none.mp h3) with hc | hc
          · exact Or.inl hc
          · exact Or.inr fun hf => hc ((rootStep_fsle false _ i.rootDir).1 p.dropLast hf)
        · exact rootStep_not_file (Option.not_isSome_iff_eq_none.mp h3) hok
    · rw [if_pos (fun hcc => h2 hcc)] at hok
      simp at hok

/-- Processing an entry whose path is already gone, whose cascade start
is the root or not a regular file, and whose root is not a regular file,
never errors in real mode. -/
theorem processEntry_absent_ok {s : RunState} {p : Path} {i : PathInfo}
    (hwf : WF s.fs) (herr : s.err = none)
    (hcheck : charListContains (pathChars p) (pathChars i.rootDir) = true)
    (hp : ¬ s.fs.mem p)
    (hd : p.dropLast = i.rootDir ∨ p.dropLast ∉ s.fs.files)
    (hr : i.rootDir ∉ s.fs.files) :
    (processEntry false s (p, i)).err = none := by
  have hleaf : leafStep false s p i = s := by
    rw [leafStep, if_neg (by simp), if_neg hp]
  simp only [processEntry, hleaf]
  rw [if_neg (by rw [herr]; simp)]
  rw [if_neg (not_not_intro hcheck)]
  have herr2 : ({ s with removed := p :: s.removed } : RunState).err = none := herr
  have h3 : (cascadeFrom false i.rootDir (p.dropLast.length + 1)
      { s with removed := p :: s.removed } p.dropLast).err = none := by
    rcases hd with hd | hd
    · rw [cascadeFrom, if_pos hd]
      exact herr2
    · exact cascade_no_error i.rootDir (p.dropLast.length + 1)
        { s with removed := p :: s.removed } p.dropLast herr2 hwf hd
  rw [if_neg (by rw [h3]; simp)]
  exact rootStep_err_none h3 (fun hf => hr
    ((cascade_fsle false i.rootDir (p.dropLast.length + 1)
      { s with removed := p :: s.removed } p.dropLast).1 i.rootDir hf))

/-- A run started in an error state does nothing (`return err`). -/
theorem runFrom_err_some (dryRun : Bool) :
    ∀ (es : List (Path × PathInfo)) (s : RunState), s.err.isSome = true →
      runFrom dryRun s es = s := by
  intro es
  cases es with
  | nil => exact fun s _ => rfl
  | cons e es =>
    intro s h
    rw [runFrom, if_pos h]

/-- Facts extracted from a successful real run for every plan entry,
stated over the run's final filesystem. -/
theorem runFrom_ok_facts :
    ∀ (es : List (Path × PathInfo)) (s : RunState), WF s.fs → s.err = none →
      (runFrom false s es).err = none →
      ∀ e ∈ es,
        charListContains (pathChars e.1) (pathChars e.2.rootDir) = true ∧
        ¬ (runFrom false s es).fs.mem e.1 ∧
        (e.1.dropLast = e.2.rootDir ∨ e.1.dropLast ∉ (runFrom false s es).fs.files) ∧
        e.2.rootDir ∉ (runFrom false s es).fs.files := by
  intro es
  induction es with
  | nil =>
    intro s _ _ _ e he
    cases he
  | cons a es ih =>
    intro s hwf herr hok
    rw [runFrom, if_neg (by rw [herr]; simp)] at hok
    have hpe : (processEntry false s a).err = none := by
      by_cases hcase : (processEntry false s a).err.isSome = true
      · rw [runFrom_err_some false es _ hcase] at hok
        rw [hok] at hcase
        simp at hcase
      · exact Option.not_isSome_iff_eq_none.mp hcase
    intro e he
    rw [runFrom, if_neg (by rw [herr]; simp)]
    rcases List.mem_cons.mp he with heq | he
    · subst heq
      obtain ⟨h1, h2, h3, h4⟩ := processEntry_ok_facts hwf herr hpe
      refine ⟨h1, ?_, ?_, ?_⟩
      · exact fun hm => h2 ((runFrom_fsle false es _).mem hm)
      · rcases h3 with h3 | h3
        · exact Or.inl h3
        · exact Or.inr fun hf => h3 ((runFrom_fsle false es _).1 _ hf)
      · exact fun hf => h4 ((runFrom_fsle false es _).1 _ hf)
    · exact ih (processEntry false s a) (WF_processEntry false hwf a) hpe hok e he

/-- A real run over entries that are all already settled (path gone,
cascade start and root not regular files, checks passing) in some
reference filesystem that bounds the state never errors, and its
filesystem stays bounded by the reference. -/
theorem runFrom_absent_ok :
    ∀ (es : List (Path × PathInfo)) (s : RunState) (F : FS),
      WF s.fs → s.err = none → FSle s.fs F →
      (∀ e ∈ es,
        charListContains (pathChars e.1) (pathChars e.2.rootDir) = true ∧
        ¬ F.mem e.1 ∧
        (e.1.dropLast = e.2.rootDir ∨ e.1.dropLast ∉ F.files) ∧
        e.2.rootDir ∉ F.files) →
      (runFrom false s es).err = none := by
  intro es
  induction es with
  | nil =>
    intro s F _ herr _ _
    exact herr
  | cons a es ih =>
    intro s F hwf herr hle hfacts
    obtain ⟨h1, h2, h3, h4⟩ := hfacts a (List.mem_cons_self a es)
    rw [runFrom, if_neg (by rw [herr]; simp)]
    have hp : ¬ s.fs.mem a.1 := fun hm => h2 (hle.mem hm)
    have hd : a.1.dropLast = a.2.rootDir ∨ a.1.dropLast ∉ s.fs.files := by
      rcases h3 with h3 | h3
      · exact Or.inl h3
      · exact Or.inr fun hf => h3 (hle.1 _ hf)
    have hr : a.2.rootDir ∉ s.fs.files := fun hf => h4 (hle.1 _ hf)
    have hpe : (processEntry false s a).err = none :=
      processEntry_absent_ok hwf herr h1 hp hd hr
    exact ih (processEntry false s a) F (WF_processEntry false hwf a) hpe
      ((processEntry_fsle false s a).trans hle)
      (fun e he => hfacts e (List.mem_cons_of_mem a he))

/-- Everything a real run reports was in the starting output or present
in the starting filesystem. -/
theorem runFrom_out_mem :
    ∀ (es : List (Path × PathInfo)) (s : RunState),
      ∀ x ∈ (runFrom false s es).out, x ∈ s.out ∨ s.fs.mem x := by
  intro es
  induction es with
  | nil => exact fun s x hx => Or.inl hx
  | cons a es ih =>
    intro s x
    rw [runFrom]
    split
    · exact fun hx => Or.inl hx
    · intro hx
      rcases ih (processEntry false s a) x hx with hx | hx
      · rcases processEntry_real_out_mem s a.1 a.2 x hx with hx | hx
        · exact Or.inl hx
        · exact Or.inr hx
      · exact Or.inr ((processEntry_fsle false s a).mem hx)

/-- The one-directory parity step: over a simulated state, the real and
dry `removeDirIfEmpty` at an untouched non-file path agree on the
removal decision, touch neither output nor error, and update the state
in lock-step; when they remove, no child of the directory in the
starting filesystem was untouched. -/
theorem rdie_parity (fs0 : FS) (rem out : List Path) (fsR : FS) (d : Path)
    (hsim : Sim fs0 rem fsR) (hfree : Free rem d) (hnf : d ∉ fs0.files) :
    (removeDirIfEmpty false ⟨fsR, rem, out, none⟩ d).1 =
      (removeDirIfEmpty true ⟨fs0, rem, out, none⟩ d).1 ∧
    ((removeDirIfEmpty false ⟨fsR, rem, out, none⟩ d).1 = false →
      (removeDirIfEmpty false ⟨fsR, rem, out, none⟩ d).2 = ⟨fsR, rem, out, none⟩ ∧
      (removeDirIfEmpty true ⟨fs0, rem, out, none⟩ d).2 = ⟨fs0, rem, out, none⟩) ∧
    ((removeDirIfEmpty false ⟨fsR, rem, out, none⟩ d).1 = true →
      (removeDirIfEmpty false ⟨fsR, rem, out, none⟩ d).2 =
        ⟨fsR.removeAll d, d :: rem, out, none⟩ ∧
      (removeDirIfEmpty true ⟨fs0, rem, out, none⟩ d).2 = ⟨fs0, d :: rem, out, none⟩ ∧
      ∀ q ∈ fs0.children d, ¬ Free rem q) := by
  have hmemR : fsR.mem d ↔ fs0.mem d := by
    rw [Sim.mem_iff hsim]
    exact and_iff_left hfree
  have hfR : d ∉ fsR.files := fun h => hnf ((hsim.1 d).mp h).1
  by_cases hm : fs0.mem d
  · have hmm : ∀ q, q ∈ effListing false ⟨fsR, rem, out, none⟩ d ↔
        q ∈ effListing true ⟨fs0, rem, out, none⟩ d := by
      intro q
      rw [effListing_false, effListing_true]
      show q ∈ fsR.children d ↔ q ∈ (fs0.children d).filter fun q => ! rem.contains q
      rw [Sim.children_mem hsim, List.mem_filter]
      refine and_congr_right fun hq => ?_
      rw [Bool.not_eq_true', ← Bool.not_eq_true]
      constructor
      · intro hf hc
        exact Free_not_mem hf (List.elem_iff.mp hc)
      · intro hc m hmrem hmq
        rcases eq_or_ne m q with rfl | hne
        · exact hc (List.elem_iff.mpr hmrem)
        · obtain ⟨_, hdq, hlen⟩ := mem_children_iff.mp hq
          have hml : m.length < q.length := proper_pre_length hmq hne
          exact hfree m hmrem (pre_of_pre_length_le hmq hdq (by omega))
    have hiff : ((effListing false ⟨fsR, rem, out, none⟩ d).isEmpty = true) ↔
        ((effListing true ⟨fs0, rem, out, none⟩ d).isEmpty = true) := by
      rw [isEmpty_iff_not_mem, isEmpty_iff_not_mem]
      exact forall_congr' fun x => not_congr (hmm x)
    have hemp : (effListing false ⟨fsR, rem, out, none⟩ d).isEmpty =
        (effListing true ⟨fs0, rem, out, none⟩ d).isEmpty := by
      cases hA : (effListing false ⟨fsR, rem, out, none⟩ d).isEmpty <;>
        cases hB : (effListing true ⟨fs0, rem, out, none⟩ d).isEmpty <;>
        simp_all
    rw [removeDirIfEmpty, removeDirIfEmpty,
      if_neg (not_not_intro (hmemR.mpr hm)), if_neg (not_not_intro hm),
      if_neg hfR, if_neg hnf, hemp]
    split
    · rename_i hempty
      refine ⟨rfl, fun hff => absurd hff (by simp), fun _ => ⟨rfl, rfl, ?_⟩⟩
      intro q hq hfq
      have hqA : q ∈ effListing false ⟨fsR, rem, out, none⟩ d := by
        rw [effListing_false]
        exact (Sim.children_mem hsim d q).mpr ⟨hq, hfq⟩
      exact (isEmpty_iff_not_mem.mp (hiff.mpr hempty) q) hqA
    · exact ⟨rfl, fun _ => ⟨rfl, rfl⟩, fun h => absurd h (by simp)⟩
  · have hR : removeDirIfEmpty false ⟨fsR, rem, out, none⟩ d =
        (false, ⟨fsR, rem, out, none⟩) := by
      rw [removeDirIfEmpty, if_pos (fun h => hm (hmemR.mp h))]
    have hD : removeDirIfEmpty true ⟨fs0, rem, out, none⟩ d =
        (false, ⟨fs0, rem, out, none⟩) := by
      rw [removeDirIfEmpty, if_pos hm]
    rw [hR, hD]
    exact ⟨rfl, fun _ => ⟨rfl, rfl⟩, fun h => absurd h (by simp)⟩

/-- Parity of the upward cascade: starting from a simulated state at an
untouched chain position strictly extending an ancestor-free root, the
real and dry cascades stay in lock-step: same outputs, same removed
sets, no errors, the dry filesystem untouched, the simulation invariant
preserved, all new removals strictly below the root, and every path in
`Q` still untouched afterwards. -/
theorem cascade_parity (fs0 : FS) (hwf : WF fs0) (root : Path) (Q : List Path) :
    ∀ (fuel : Nat) (rem out : List Path) (fsR : FS) (d : Path),
      Sim fs0 rem fsR → Free rem d → root <+: d →
      (∀ r, r <+: d → r ∉ fs0.files) →
      (∀ q ∈ Q, fs0.mem q ∧ Free rem q ∧ ¬ q <+: d) →
      ParityOk fs0 Q rem root
        (cascadeFrom false root fuel ⟨fsR, rem, out, none⟩ d)
        (cascadeFrom true root fuel ⟨fs0, rem, out, none⟩ d) := by
  intro fuel
  induction fuel with
  | zero =>
    intro rem out fsR d hsim hfree hroot hnofile hQ
    exact ⟨rfl, rfl, rfl, rfl, rfl, hsim,
      ⟨[], rfl, fun m hm => absurd hm (List.not_mem_nil m)⟩,
      fun q hq => (hQ q hq).2.1⟩
  | succ n ih =>
    intro rem out fsR d hsim hfree hroot hnofile hQ
    by_cases hdr : d = root
    · rw [cascadeFrom, cascadeFrom, if_pos hdr, if_pos hdr]
      exact ⟨rfl, rfl, rfl, rfl, rfl, hsim,
        ⟨[], rfl, fun m hm => absurd hm (List.not_mem_nil m)⟩,
        fun q hq => (hQ q hq).2.1⟩
    · by_cases hm : fs0.mem d
      · have hnd : d ∉ fs0.files := hnofile d List.prefix_rfl
        obtain ⟨hflag_eq, hfalse_case, htrue_case⟩ :=
          rdie_parity fs0 rem out fsR d hsim hfree hnd
        have hmemR : fsR.mem d := (Sim.mem_iff hsim d).mpr ⟨hm, hfree⟩
        cases hflag : (removeDirIfEmpty true ⟨fs0, rem, out, none⟩ d).1
        · have hflagR : (removeDirIfEmpty false ⟨fsR, rem, out, none⟩ d).1 = false :=
            hflag_eq.trans hflag
          obtain ⟨hstR, hstD⟩ := hfalse_case hflagR
          have hR : cascadeFrom false root (n + 1) ⟨fsR, rem, out, none⟩ d =
              ⟨fsR, rem, out, none⟩ := by
            rw [cascadeFrom, if_neg hdr, if_neg (not_not_intro hmemR), hstR, hflagR]
            rfl
          have hD : cascadeFrom true root (n + 1) ⟨fs0, rem, out, none⟩ d =
              ⟨fs0, rem, out, none⟩ := by
            rw [cascadeFrom, if_neg hdr, if_neg (not_not_intro hm), hstD, hflag]
            rfl
          rw [hR, hD]
          exact ⟨rfl, rfl, rfl, rfl, rfl, hsim,
            ⟨[], rfl, fun m hm => absurd hm (List.not_mem_nil m)⟩,
            fun q hq => (hQ q hq).2.1⟩
        · have hflagR : (removeDirIfEmpty false ⟨fsR, rem, out, none⟩ d).1 = true :=
            hflag_eq.trans hflag
          obtain ⟨hstR, hstD, hch⟩ := htrue_case hflagR
          have hdnil : d ≠ [] := by
            rintro rfl
            rcases hroot with ⟨t, ht⟩
            exact hdr (List.append_eq_nil.mp ht).1.symm
          have hrootd : root ≠ d := fun h => hdr h.symm
          have hndq : ∀ q ∈ Q, ¬ d <+: q := by
            intro q hq hdq
            obtain ⟨hqmem, hqfree, hqnp⟩ := hQ q hq
            rcases eq_or_ne d q with rfl | hne
            · exact hqnp List.prefix_rfl
            · obtain ⟨c, hdc, hclen, hcq⟩ := exists_child_toward hdq hne
              have hcmem : fs0.mem c := by
                rcases eq_or_ne c q with rfl | hcne
                · exact hqmem
                · exact Or.inr (WF.closed hwf hqmem hcq hcne)
              exact hch c (mem_children_iff.mpr ⟨hcmem, hdc, hclen⟩)
                (Free_of_pre hqfree hcq)
          have hih := ih (d :: rem) (out ++ [d]) (fsR.removeAll d) d.dropLast
            (Sim.removeAll_cons hsim d)
            (Free_cons.mpr ⟨fun hpre => by
                have h1 := hpre.length_le
                rw [List.length_dropLast] at h1
                have h2 : 0 < d.length := List.length_pos.mpr hdnil
                omega,
              Free_of_pre hfree (dropLast_isPre d)⟩)
            (pre_dropLast_of_proper hroot hrootd)
            (fun r hr => hnofile r (hr.trans (dropLast_isPre d)))
            (fun q hq => ⟨(hQ q hq).1,
              Free_cons.mpr ⟨hndq q hq, (hQ q hq).2.1⟩,
              fun hk => (hQ q hq).2.2 (hk.trans (dropLast_isPre d))⟩)
          have hR : cascadeFrom false root (n + 1) ⟨fsR, rem, out, none⟩ d =
              cascadeFrom false root n ⟨fsR.removeAll d, d :: rem, out ++ [d], none⟩
                d.dropLast := by
            rw [cascadeFrom, if_neg hdr, if_neg (not_not_intro hmemR), hstR, hflagR]
            rfl
          have hD : cascadeFrom true root (n + 1) ⟨fs0, rem, out, none⟩ d =
              cascadeFrom true root n ⟨fs0, d :: rem, out ++ [d], none⟩ d.dropLast := by
            rw [cascadeFrom, if_neg hdr, if_neg (not_not_intro hm), hstD, hflag]
            rfl
          rw [hR, hD]
          obtain ⟨ho, heR, heD, hfD, hrem, hsim', ⟨L, hL, hLall⟩, hQ'⟩ := hih
          refine ⟨ho, heR, heD, hfD, hrem, hsim', ⟨L ++ [d], by rw [hL]; simp, ?_⟩, hQ'⟩
          intro m hm'
          rcases List.mem_append.mp hm' with hm' | hm'
          · exact hLall m hm'
          · simp only [List.mem_singleton] at hm'
            subst hm'
            exact ⟨hroot, hdr⟩
      · have hmemR : ¬ fsR.mem d := fun h => hm ((Sim.mem_iff hsim d).mp h).1
        have hR : cascadeFrom false root (n + 1) ⟨fsR, rem, out, none⟩ d =
            ⟨fsR, rem, out, none⟩ := by
          rw [cascadeFrom, if_neg hdr, if_pos hmemR]
        have hD : cascadeFrom true root (n + 1) ⟨fs0, rem, out, none⟩ d =
            ⟨fs0, rem, out, none⟩ := by
          rw [cascadeFrom, if_neg hdr, if_pos hm]
        rw [hR, hD]
        exact ⟨rfl, rfl, rfl, rfl, rfl, hsim,
          ⟨[], rfl, fun m hm => absurd hm (List.not_mem_nil m)⟩,
          fun q hq => (hQ q hq).2.1⟩

theorem pathChars_acc (l : Path) (acc : List Char) :
    l.foldl (fun acc c => acc ++ '/' :: c.toList) acc = acc ++ pathChars l := by
  induction l generalizing acc with
  | nil => simp [pathChars]
  | cons a as ih =>
    rw [List.foldl_cons, ih]
    conv_rhs => rw [pathChars, List.foldl_cons, ih]
    simp

theorem pathChars_append (p q : Path) :
    pathChars (p ++ q) = pathChars p ++ pathChars q := by
  rw [pathChars, List.foldl_append, pathChars_acc]
  rfl

theorem charListContains_of_pre {hay needle : List Char} (h : needle <+: hay) :
    charListContains hay needle = true := by
  have h1 : needle.isPrefixOf hay = true := isPrefixOf_iff.mpr h
  cases hay <;> simp [charListContains, h1]

theorem contains_of_root {root p : Path} (h : root <+: p) :
    charListContains (pathChars p) (pathChars root) = true := by
  rcases h with ⟨t, rfl⟩
  exact charListContains_of_pre ⟨pathChars t, (pathChars_append root t).symm⟩

theorem insertEntry_perm (x : Path × PathInfo) (l : List (Path × PathInfo)) :
    List.Perm (insertEntry x l) (x :: l) := by
  induction l with
  | nil => exact .refl _
  | cons y ys ih =>
    rw [insertEntry]
    split
    · exact .refl _
    · exact (ih.cons y).trans (List.Perm.swap x y ys)

theorem sortPlan_perm (l : List (Path × PathInfo)) : List.Perm (sortPlan l) l := by
  induction l with
  | nil => exact .refl _
  | cons x xs ih =>
    rw [sortPlan, List.foldr_cons]
    exact (insertEntry_perm x _).trans (ih.cons x)

/-- Every path appended to the output by the cascade loop extends the
root boundary, provided the loop starts at a path extending it. -/
theorem cascadeFrom_out_bound (dryRun : Bool) (root : Path) :
    ∀ (fuel : Nat) (s : RunState) (d : Path), root <+: d →
      ∃ t, (cascadeFrom dryRun root fuel s d).out = s.out ++ t ∧
        ∀ x ∈ t, root <+: x := by
  intro fuel
  induction fuel with
  | zero => exact fun s d _ => ⟨[], by simp [cascadeFrom], by simp⟩
  | succ n ih =>
    intro s d h
    rw [cascadeFrom]
    split
    · exact ⟨[], by simp, by simp⟩
    · rename_i hne
      split
      · exact ⟨[], by simp, by simp⟩
      · split
        · exact ⟨[], by simp [removeDirIfEmpty_out], by simp⟩
        · split
          · obtain ⟨t, ht, hall⟩ :=
              ih { (removeDirIfEmpty dryRun s d).2 with
                    out := (removeDirIfEmpty dryRun s d).2.out ++ [d] } d.dropLast
                (pre_dropLast_of_proper h (fun hh => hne hh.symm))
            refine ⟨d :: t, ?_, ?_⟩
            · rw [ht]
              simp [removeDirIfEmpty_out]
            · intro x hx
              rcases List.mem_cons.mp hx with hx | hx
              · exact hx ▸ h
              · exact hall x hx
          · exact ⟨[], by simp [removeDirIfEmpty_out], by simp⟩

theorem Sim.removeFile_cons {fs0 : FS} {rem : List Path} {fsR : FS} {p : Path}
    (hwf : WF fs0) (h : Sim fs0 rem fsR) (hpf : p ∈ fs0.files) :
    Sim fs0 (p :: rem) ⟨fsR.files.filter fun q => ! (q == p), fsR.dirs⟩ := by
  constructor
  · intro q
    show q ∈ fsR.files.filter _ ↔ _
    rw [List.mem_filter, h.1 q, Free_cons]
    simp only [Bool.not_eq_true', beq_eq_false_iff_ne]
    constructor
    · rintro ⟨⟨hq0, hfr⟩, hne⟩
      refine ⟨hq0, ?_, hfr⟩
      intro hpq
      rcases eq_or_ne p q with rfl | hne2
      · exact hne rfl
      · exact hwf.2 p hpf (WF.closed hwf (Or.inl hq0) hpq hne2)
    · rintro ⟨hq0, hnp, hfr⟩
      exact ⟨⟨hq0, hfr⟩, fun hqp => hnp (hqp ▸ List.prefix_rfl)⟩
  · intro q
    show q ∈ fsR.dirs ↔ _
    rw [h.2 q, Free_cons]
    constructor
    · rintro ⟨hq0, hfr⟩
      refine ⟨hq0, ?_, hfr⟩
      intro hpq
      rcases eq_or_ne p q with rfl | hne2
      · exact hwf.2 p hpf hq0
      · exact hwf.2 p hpf (WF.closed hwf (Or.inr hq0) hpq hne2)
    · rintro ⟨hq0, _, hfr⟩
      exact ⟨hq0, hfr⟩

/-- Parity of processing one plan entry whose path exists, is untouched,
and lies strictly under its declared root, with correctly flagged files,
over a simulated state pair: the real and dry `processEntry` agree on
output and removed set, neither errors, the dry filesystem stays
untouched, the simulation invariant is preserved, and the paths of the
remaining entries `Q` stay untouched. -/
theorem processEntry_parity (fs0 : FS) (hwf : WF fs0) (p : Path) (i : PathInfo)
    (Q rem out : List Path) (fsR : FS)
    (hsim : Sim fs0 rem fsR)
    (hp0 : fs0.mem p) (hfree : Free rem p)
    (hroot : i.rootDir <+: p) (hrne : i.rootDir ≠ p)
    (hflag : i.isDir = false → p ∈ fs0.files)
    (hQ : ∀ q ∈ Q, fs0.mem q ∧ Free rem q ∧ ¬ q <+: p ∧ ¬ p <+: q) :
    EntryOk fs0 Q
      (processEntry false ⟨fsR, rem, out, none⟩ (p, i))
      (processEntry true ⟨fs0, rem, out, none⟩ (p, i)) := by
  have hmemR : fsR.mem p := (Sim.mem_iff hsim p).mpr ⟨hp0, hfree⟩
  have hpnil : p ≠ [] := by
    rintro rfl
    rcases hroot with ⟨t, ht⟩
    exact hrne (List.append_eq_nil.mp ht).1
  -- the real leaf step deletes the leaf; the simulation extends
  obtain ⟨fsx, hlR, hsimx⟩ : ∃ fsx,
      leafStep false ⟨fsR, rem, out, none⟩ p i = ⟨fsx, rem, out ++ [p], none⟩ ∧
      Sim fs0 (p :: rem) fsx := by
    cases hd : i.isDir
    · have hpf : p ∈ fs0.files := hflag hd
      have hpfR : p ∈ fsR.files := (hsim.1 p).mpr ⟨hpf, hfree⟩
      have hos : FS.osRemove fsR p =
          some ⟨fsR.files.filter fun q => ! (q == p), fsR.dirs⟩ := by
        rw [FS.osRemove, if_pos hpfR]
      refine ⟨⟨fsR.files.filter fun q => ! (q == p), fsR.dirs⟩, ?_,
        Sim.removeFile_cons hwf hsim hpf⟩
      rw [leafStep, if_neg (by simp), if_pos hmemR, if_neg (by simp [hd]), hos]
    · refine ⟨fsR.removeAll p, ?_, Sim.removeAll_cons hsim p⟩
      rw [leafStep, if_neg (by simp), if_pos hmemR, if_pos hd]
  have hlD : leafStep true ⟨fs0, rem, out, none⟩ p i = ⟨fs0, rem, out ++ [p], none⟩ := by
    rw [leafStep, if_pos rfl]
  -- the contains check passes
  have hcont := contains_of_root hroot
  -- both runs reduce to the root step applied to the cascade result
  have hpeR : processEntry false ⟨fsR, rem, out, none⟩ (p, i) =
      (if (cascadeFrom false i.rootDir (p.dropLast.length + 1)
            ⟨fsx, p :: rem, out ++ [p], none⟩ p.dropLast).err.isSome then
        cascadeFrom false i.rootDir (p.dropLast.length + 1)
          ⟨fsx, p :: rem, out ++ [p], none⟩ p.dropLast
      else
        rootStep false (cascadeFrom false i.rootDir (p.dropLast.length + 1)
          ⟨fsx, p :: rem, out ++ [p], none⟩ p.dropLast) i.rootDir) := by
    simp only [processEntry]
    rw [hlR]
    rw [if_neg (by simp), if_neg (not_not_intro hcont)]
  have hpeD : processEntry true ⟨fs0, rem, out, none⟩ (p, i) =
      (if (cascadeFrom true i.rootDir (p.dropLast.length + 1)
            ⟨fs0, p :: rem, out ++ [p], none⟩ p.dropLast).err.isSome then
        cascadeFrom true i.rootDir (p.dropLast.length + 1)
          ⟨fs0, p :: rem, out ++ [p], none⟩ p.dropLast
      else
        rootStep true (cascadeFrom true i.rootDir (p.dropLast.length + 1)
          ⟨fs0, p :: rem, out ++ [p], none⟩ p.dropLast) i.rootDir) := by
    simp only [processEntry]
    rw [hlD]
    rw [if_neg (by simp), if_neg (not_not_intro hcont)]
  -- cascade parity from the parent of p
  have hcasc := cascade_parity fs0 hwf i.rootDir Q (p.dropLast.length + 1)
    (p :: rem) (out ++ [p]) fsx p.dropLast hsimx
    (Free_cons.mpr ⟨fun hpre => by
        have h1 := hpre.length_le
        rw [List.length_dropLast] at h1
        have h2 : 0 < p.length := List.length_pos.mpr hpnil
        omega,
      Free_of_pre hfree (dropLast_isPre p)⟩)
    (pre_dropLast_of_proper hroot hrne)
    (fun r hr hrf => hwf.2 r hrf (WF.closed hwf hp0 (hr.trans (dropLast_isPre p))
      (fun hrp => by
        subst hrp
        have h1 := hr.length_le
        rw [List.length_dropLast] at h1
        have h2 : 0 < r.length := List.length_pos.mpr hpnil
        omega)))
    (fun q hq => ⟨(hQ q hq).1,
      Free_cons.mpr ⟨(hQ q hq).2.2.2, (hQ q hq).2.1⟩,
      fun hk => (hQ q hq).2.2.1 (hk.trans (dropLast_isPre p))⟩)
  set cR := cascadeFrom false i.rootDir (p.dropLast.length + 1)
    ⟨fsx, p :: rem, out ++ [p], none⟩ p.dropLast with hcRdef
  set cD := cascadeFrom true i.rootDir (p.dropLast.length + 1)
    ⟨fs0, p :: rem, out ++ [p], none⟩ p.dropLast with hcDdef
  obtain ⟨ho3, heR3, heD3, hfD3, hrem3, hsim3, ⟨L, hL, hLall⟩, hQ3⟩ := hcasc
  rw [heR3] at hpeR
  rw [heD3] at hpeD
  simp only [Option.isSome_none, Bool.false_eq_true, if_false] at hpeR hpeD
  -- the cascade results in eta-expanded form
  have hcReta : cR = ⟨cR.fs, cR.removed, cR.out, none⟩ := by rw [← heR3]
  have hcDeta : cD = ⟨fs0, cR.removed, cR.out, none⟩ := by
    rw [← hfD3, hrem3, ho3, ← heD3]
  -- the removed set after the cascade leaves the root untouched
  have hfree3root : Free cR.removed i.rootDir := by
    rw [hL]
    intro m hm hmr
    rcases List.mem_append.mp hm with hm | hm
    · obtain ⟨h1, h2⟩ := hLall m hm
      have := proper_pre_length h1 (fun h => h2 h.symm)
      exact absurd hmr.length_le (by omega)
    · rcases List.mem_cons.mp hm with rfl | hm
      · have h1 := proper_pre_length hroot hrne
        exact absurd hmr.length_le (by omega)
      · exact hfree m hm (hmr.trans hroot)
  have hrnf : i.rootDir ∉ fs0.files := fun hrf =>
    hwf.2 i.rootDir hrf (WF.closed hwf hp0 hroot hrne)
  -- root-step parity
  obtain ⟨hflag_eq, hfalse_case, htrue_case⟩ :=
    rdie_parity fs0 cR.removed cR.out cR.fs i.rootDir hsim3 hfree3root hrnf
  rw [hpeR, hpeD, hcReta, hcDeta]
  cases hflag : (removeDirIfEmpty true ⟨fs0, cR.removed, cR.out, none⟩ i.rootDir).1
  · have hflagR : (removeDirIfEmpty false ⟨cR.fs, cR.removed, cR.out, none⟩ i.rootDir).1 =
        false := hflag_eq.trans hflag
    obtain ⟨hstR, hstD⟩ := hfalse_case hflagR
    have hrsR : rootStep false ⟨cR.fs, cR.removed, cR.out, none⟩ i.rootDir =
        ⟨cR.fs, cR.removed, cR.out, none⟩ := by
      rw [rootStep, hstR, hflagR]
      rfl
    have hrsD : rootStep true ⟨fs0, cR.removed, cR.out, none⟩ i.rootDir =
        ⟨fs0, cR.removed, cR.out, none⟩ := by
      rw [rootStep, hstD, hflag]
      rfl
    rw [hrsR, hrsD]
    exact ⟨rfl, rfl, rfl, rfl, rfl, hsim3, hQ3⟩
  · have hflagR : (removeDirIfEmpty false ⟨cR.fs, cR.removed, cR.out, none⟩ i.rootDir).1 =
        true := hflag_eq.trans hflag
    obtain ⟨hstR, hstD, hch⟩ := htrue_case hflagR
    have hrsR : rootStep false ⟨cR.fs, cR.removed, cR.out, none⟩ i.rootDir =
        ⟨cR.fs.removeAll i.rootDir, i.rootDir :: cR.removed,
          cR.out ++ [i.rootDir], none⟩ := by
      rw [rootStep, hstR, hflagR]
      rfl
    have hrsD : rootStep true ⟨fs0, cR.removed, cR.out, none⟩ i.rootDir =
        ⟨fs0, i.rootDir :: cR.removed, cR.out ++ [i.rootDir], none⟩ := by
      rw [rootStep, hstD, hflag]
      rfl
    rw [hrsR, hrsD]
    refine ⟨rfl, rfl, rfl, rfl, rfl, Sim.removeAll_cons hsim3 i.rootDir, ?_⟩
    intro q hq
    refine Free_cons.mpr ⟨?_, hQ3 q hq⟩
    intro hrq
    rcases eq_or_ne i.rootDir q with heq | hne
    · exact (hQ q hq).2.2.1 (heq ▸ hroot)
    · obtain ⟨c, hdc, hclen, hcq⟩ := exists_child_toward hrq hne
      have hcmem : fs0.mem c := by
        rcases eq_or_ne c q with heq2 | hcne
        · exact heq2 ▸ (hQ q hq).1
        · exact Or.inr (WF.closed hwf (hQ q hq).1 hcq hcne)
      exact hch c (mem_children_iff.mpr ⟨hcmem, hdc, hclen⟩)
        (Free_of_pre (hQ3 q hq) hcq)

/-- Parity of the walk over the sorted plan: over a simulated state
pair, if every remaining entry's path exists, is untouched, and lies
strictly under its root with a correct file flag, and the entries'
paths are pairwise prefix-free, the real and dry walks produce equal
outputs, neither errors, and the dry filesystem stays untouched. -/
theorem runFrom_parity (fs0 : FS) (hwf : WF fs0) :
    ∀ (es : List (Path × PathInfo)) (rem out : List Path) (fsR : FS),
      Sim fs0 rem fsR →
      (∀ e ∈ es, fs0.mem e.1 ∧ Free rem e.1 ∧ e.2.rootDir <+: e.1 ∧
        e.2.rootDir ≠ e.1 ∧ (e.2.isDir = false → e.1 ∈ fs0.files)) →
      List.Pairwise (fun a b => ¬ a.1 <+: b.1 ∧ ¬ b.1 <+: a.1) es →
      (runFrom false ⟨fsR, rem, out, none⟩ es).out =
        (runFrom true ⟨fs0, rem, out, none⟩ es).out ∧
      (runFrom false ⟨fsR, rem, out, none⟩ es).err = none ∧
      (runFrom true ⟨fs0, rem, out, none⟩ es).err = none ∧
      (runFrom true ⟨fs0, rem, out, none⟩ es).fs = fs0 := by
  intro es
  induction es with
  | nil =>
    intro rem out fsR hsim hes hpair
    exact ⟨rfl, rfl, rfl, rfl⟩
  | cons e es ih =>
    obtain ⟨p, i⟩ := e
    intro rem out fsR hsim hes hpair
    obtain ⟨hm, hfree, hroot, hrne, hflag⟩ := hes (p, i) (List.mem_cons_self (p, i) es)
    have hQ : ∀ q ∈ es.map Prod.fst,
        fs0.mem q ∧ Free rem q ∧ ¬ q <+: p ∧ ¬ p <+: q := by
      intro q hq
      obtain ⟨e', he', heq⟩ := List.mem_map.mp hq
      obtain ⟨hm', hfree', _⟩ := hes e' (List.mem_cons_of_mem (p, i) he')
      have hp := (List.pairwise_cons.mp hpair).1 e' he'
      exact ⟨heq ▸ hm', heq ▸ hfree', heq ▸ hp.2, heq ▸ hp.1⟩
    obtain ⟨ho, heR, heD, hfD, hrem, hsim', hQ'⟩ :=
      processEntry_parity fs0 hwf p i (es.map Prod.fst) rem out fsR hsim
        hm hfree hroot hrne hflag hQ
    have hR1 : runFrom false ⟨fsR, rem, out, none⟩ ((p, i) :: es) =
        runFrom false (processEntry false ⟨fsR, rem, out, none⟩ (p, i)) es := by
      rw [runFrom, if_neg (by simp)]
    have hD1 : runFrom true ⟨fs0, rem, out, none⟩ ((p, i) :: es) =
        runFrom true (processEntry true ⟨fs0, rem, out, none⟩ (p, i)) es := by
      rw [runFrom, if_neg (by simp)]
    have hReta : processEntry false ⟨fsR, rem, out, none⟩ (p, i) =
        ⟨(processEntry false ⟨fsR, rem, out, none⟩ (p, i)).fs,
          (processEntry false ⟨fsR, rem, out, none⟩ (p, i)).removed,
          (processEntry false ⟨fsR, rem, out, none⟩ (p, i)).out, none⟩ :=
      runState_eta_of_err_none heR
    have hDeta : processEntry true ⟨fs0, rem, out, none⟩ (p, i) =
        ⟨fs0, (processEntry false ⟨fsR, rem, out, none⟩ (p, i)).removed,
          (processEntry false ⟨fsR, rem, out, none⟩ (p, i)).out, none⟩ := by
      rw [runState_eta_of_err_none heD, hfD, ← hrem, ← ho]
    have hes' : ∀ e' ∈ es,
        fs0.mem e'.1 ∧ Free (processEntry false ⟨fsR, rem, out, none⟩ (p, i)).removed e'.1 ∧
        e'.2.rootDir <+: e'.1 ∧ e'.2.rootDir ≠ e'.1 ∧
        (e'.2.isDir = false → e'.1 ∈ fs0.files) := by
      intro e' he'
      obtain ⟨hm', _, h3, h4, h5⟩ := hes e' (List.mem_cons_of_mem (p, i) he')
      exact ⟨hm', hQ' e'.1 (List.mem_map_of_mem Prod.fst he'), h3, h4, h5⟩
    obtain ⟨iho, iheR, iheD, ihfD⟩ := ih
      (processEntry false ⟨fsR, rem, out, none⟩ (p, i)).removed
      (processEntry false ⟨fsR, rem, out, none⟩ (p, i)).out
      (processEntry false ⟨fsR, rem, out, none⟩ (p, i)).fs
      hsim' hes' (List.pairwise_cons.mp hpair).2
    rw [hR1, hD1, hReta, hDeta]
    exact ⟨iho, iheR, iheD, ihfD⟩

theorem leafStep_out (dryRun : Bool) (s : RunState) (p : Path) (i : PathInfo) :
    (leafStep dryRun s p i).out = s.out ∨ (leafStep dryRun s p i).out = s.out ++ [p] := by
  unfold leafStep
  repeat' split
  all_goals simp

theorem rootStep_out (dryRun : Bool) (s : RunState) (root : Path) :
    (rootStep dryRun s root).out = s.out ∨
      (rootStep dryRun s root).out = s.out ++ [root] := by
  unfold rootStep
  repeat' split
  all_goals simp [removeDirIfEmpty_out]

/-- Every path appended to the output while processing one plan entry
extends the entry's declared root, provided the entry's path lies
strictly under that root. -/
theorem processEntry_out_bound (dryRun : Bool) (s : RunState) (p : Path) (i : PathInfo)
    (hroot : i.rootDir <+: p) (hne : i.rootDir ≠ p) :
    ∃ t, (processEntry dryRun s (p, i)).out = s.out ++ t ∧
      ∀ x ∈ t, i.rootDir <+: x := by
  obtain ⟨t0, ht0, ha0⟩ :
      ∃ t0, (leafStep dryRun s p i).out = s.out ++ t0 ∧ ∀ x ∈ t0, i.rootDir <+: x := by
    rcases leafStep_out dryRun s p i with h | h
    · exact ⟨[], by simp [h], by simp⟩
    · exact ⟨[p], by simp [h], by simp [hroot]⟩
  simp only [processEntry]
  split
  · exact ⟨t0, ht0, ha0⟩
  · split
    · exact ⟨t0, ht0, ha0⟩
    · obtain ⟨t3, ht3, ha3⟩ := cascadeFrom_out_bound dryRun i.rootDir (p.dropLast.length + 1)
        { leafStep dryRun s p i with removed := p :: (leafStep dryRun s p i).removed }
        p.dropLast (pre_dropLast_of_proper hroot hne)
      have hmem : ∀ x ∈ t0 ++ t3, i.rootDir <+: x := by
        intro x hx
        rcases List.mem_append.mp hx with hx | hx
        · exact ha0 x hx
        · exact ha3 x hx
      split
      · exact ⟨t0 ++ t3, by rw [ht3]; simp [ht0], hmem⟩
      · rcases rootStep_out dryRun _ i.rootDir with h | h
        · exact ⟨t0 ++ t3, by rw [h, ht3]; simp [ht0], hmem⟩
        · refine ⟨t0 ++ t3 ++ [i.rootDir], by rw [h, ht3]; simp [ht0], ?_⟩
          intro x hx
          rcases List.mem_append.mp hx with hx | hx
          · exact hmem x hx
          · simp only [List.mem_singleton] at hx
            exact hx ▸ List.prefix_rfl

/-- Claim C2: for the plan containing the single leaf `root/a/b/c/file`
where deleting the file empties `c` and then `b`, but `a` also contains
`a/other`, the real run removes exactly `file`, `c` and `b` (in cascade
order), leaves `a` and `root` in place, and returns no error. -/
theorem cascade_correctness :
    (runExecute false fsCascade planCascade).out =
      [["root", "a", "b", "c", "file"], ["root", "a", "b", "c"], ["root", "a", "b"]] ∧
    (runExecute false fsCascade planCascade).fs =
      ⟨[["root", "a", "other"]], [[], ["root"], ["root", "a"]]⟩ ∧
    (runExecute false fsCascade planCascade).err = none := by
  decide

/-- Claim C1 (amended): dry-run/real parity holds for well-formed
starting filesystems and plans whose paths all exist, lie strictly
under their declared roots, are pairwise prefix-free, and whose
file-flagged entries really are files: the sequence of paths reported
by the dry run equals the sequence of paths actually deleted by the
real run (plan leaves plus cascaded directories, in order), the dry run
leaves the filesystem untouched, and neither run errors.  As literally
stated -- for every plan and every starting state -- the claim is
false: see the counterexample. -/
theorem dryRun_real_parity (fs0 : FS) (plan : List (Path × PathInfo))
    (hwf : WF fs0)
    (hentries : ∀ e ∈ plan, fs0.mem e.1 ∧ e.2.rootDir <+: e.1 ∧ e.2.rootDir ≠ e.1 ∧
      (e.2.isDir = false → e.1 ∈ fs0.files))
    (hpair : List.Pairwise (fun a b => ¬ a.1 <+: b.1 ∧ ¬ b.1 <+: a.1) plan) :
    (runExecute true fs0 plan).out = (runExecute false fs0 plan).out ∧
    (runExecute true fs0 plan).fs = fs0 ∧
    (runExecute true fs0 plan).err = none ∧
    (runExecute false fs0 plan).err = none := by
  have hperm := sortPlan_perm plan
  have hsym : ∀ {x y : Path × PathInfo}, (¬ x.1 <+: y.1 ∧ ¬ y.1 <+: x.1) →
      ¬ y.1 <+: x.1 ∧ ¬ x.1 <+: y.1 := fun h => ⟨h.2, h.1⟩
  obtain ⟨ho, heR, heD, hfD⟩ := runFrom_parity fs0 hwf (sortPlan plan) [] [] fs0
    (Sim.refl0 fs0)
    (fun e he => by
      obtain ⟨h1, h2, h3, h4⟩ := hentries e (hperm.mem_iff.mp he)
      exact ⟨h1, Free_nil e.1, h2, h3, h4⟩)
    ((hperm.pairwise_iff hsym).mpr hpair)
  exact ⟨ho.symm, hfD, heD, heR⟩

/-- Witness for C1's amended theorem on the cascade scenario: the
hypotheses hold and the dry-run report equals the real-mode deleted
sequence. -/
theorem dryRun_real_parity_witness :
    WF fsCascade ∧
    (runExecute true fsCascade planCascade).out =
      (runExecute false fsCascade planCascade).out ∧
    (runExecute true fsCascade planCascade).fs = fsCascade ∧
    (runExecute false fsCascade planCascade).err = none := by
  obtain ⟨h1, h2, _, h4⟩ :=
    dryRun_real_parity fsCascade planCascade (by decide) (by decide) (by decide)
  exact ⟨by decide, h1, h2, h4⟩

/-- Claim C1, counterexample: on the nested plan `{/r/d, /r/d/f}` over
the filesystem where `/r/d` contains only `f`, the dry run reports the
sequence `[/r/d, /r, /r/d/f, /r/d, /r]` while the real run deletes only
`[/r/d, /r]`, so the reported and deleted sequences differ. -/
theorem parity_counterexample :
    (runExecute true fsNested planNested).out ≠
      (runExecute false fsNested planNested).out := by
  decide

/-- Claim C3, counterexample: for the plan entry `/a/b/c` with declared
root `/b` (the substring check `strings.Contains "/a/b/c" "/b"` passes),
the real run completes without error and deletes `/` -- a proper
ancestor of the declared root `/b`. -/
theorem boundary_counterexample :
    (runExecute false fsAside planAside).err = none ∧
    ([] : Path) ∈ (runExecute false fsAside planAside).out ∧
    ([] : Path) ≠ ["b"] ∧ ([] : Path) <+: ["b"] := by
  exact ⟨by decide, by decide, by decide, ⟨["b"], rfl⟩⟩

/-- Claim C4, counterexample: for the plan entry `/x` with declared root
`/q` (which does not occur in `"/x"`), the real run aborts with a
consistency error, but only after it has already deleted the leaf `/x`:
the deleted-path sequence is `[/x]`, not empty. -/
theorem boundary_check_counterexample :
    (runExecute false fsStray planStray).err.isSome = true ∧
    (runExecute false fsStray planStray).out = [["x"]] ∧
    ¬ (["q"] : Path) <+: ["x"] := by
  refine ⟨by decide, by decide, ?_⟩
  intro ⟨t, ht⟩
  simp at ht

/-- Claim C3 (amended): for a plan all of whose entries have their path
strictly under their declared root, every path that `Run` reports
(dry-run mode) or deletes (real mode) -- leaves, cascaded directories
and roots alike -- extends the declared root of some plan entry; in
particular no proper ancestor of that root is ever deleted or
reported. -/
theorem boundary_respected (dryRun : Bool) (fs : FS) (plan : List (Path × PathInfo))
    (hroot : ∀ e ∈ plan, e.2.rootDir <+: e.1 ∧ e.2.rootDir ≠ e.1) :
    ∀ x ∈ (runExecute dryRun fs plan).out,
      ∃ e ∈ plan, e.2.rootDir <+: x ∧ ¬ (x <+: e.2.rootDir ∧ x ≠ e.2.rootDir) := by
  have key : ∀ (es : List (Path × PathInfo)) (s : RunState),
      (∀ e ∈ es, e ∈ plan ∧ e.2.rootDir <+: e.1 ∧ e.2.rootDir ≠ e.1) →
      (∀ x ∈ s.out, ∃ e ∈ plan, e.2.rootDir <+: x) →
      ∀ x ∈ (runFrom dryRun s es).out, ∃ e ∈ plan, e.2.rootDir <+: x := by
    intro es
    induction es with
    | nil => exact fun s _ hs => hs
    | cons e es ih =>
      intro s hes hs
      rw [runFrom]
      split
      · exact hs
      · obtain ⟨hep, hr, hrne⟩ := hes e (List.mem_cons_self e es)
        obtain ⟨t, ht, hall⟩ := processEntry_out_bound dryRun s e.1 e.2 hr hrne
        refine ih _ (fun e' he' => hes e' (List.mem_cons_of_mem e he')) ?_
        intro x hx
        rw [ht] at hx
        rcases List.mem_append.mp hx with hx | hx
        · exact hs x hx
        · exact ⟨e, hep, hall x hx⟩
  intro x hx
  obtain ⟨e, hep, hpre⟩ := key (sortPlan plan) ⟨fs, [], [], none⟩
    (fun e he =>
      ⟨(sortPlan_perm plan).mem_iff.mp he,
        hroot e ((sortPlan_perm plan).mem_iff.mp he)⟩)
    (fun x hx => (List.not_mem_nil x hx).elim) x hx
  refine ⟨e, hep, hpre, ?_⟩
  rintro ⟨hxr, hne⟩
  exact absurd hpre.length_le (Nat.not_le.mpr (proper_pre_length hxr hne))

/-- Witness for C3's theorem on the cascade scenario: the plan entry
lies strictly under its root, and every removed path extends it. -/
theorem boundary_respected_witness :
    (∀ e ∈ planCascade, e.2.rootDir <+: e.1 ∧ e.2.rootDir ≠ e.1) ∧
    ∀ x ∈ (runExecute false fsCascade planCascade).out,
      ∃ e ∈ planCascade, e.2.rootDir <+: x ∧
        ¬ (x <+: e.2.rootDir ∧ x ≠ e.2.rootDir) :=
  ⟨by decide, boundary_respected false fsCascade planCascade (by decide)⟩

/-- Claim C4 (amended): when the consistency check fails -- that is,
when the root's joined string is not a substring of the path's joined
string -- `Run` aborts with an error; but the check runs after the leaf
removal, so in real mode an existing leaf flagged as a directory has
already been deleted (and reported in the deleted sequence) when the
abort happens. -/
theorem contains_check_aborts (dryRun : Bool) (s : RunState) (p : Path) (i : PathInfo)
    (herr : s.err = none)
    (hc : charListContains (pathChars p) (pathChars i.rootDir) = false) :
    (processEntry dryRun s (p, i)).err.isSome = true ∧
    (dryRun = false → s.fs.mem p → i.isDir = true →
      (processEntry dryRun s (p, i)).fs = s.fs.removeAll p ∧
      (processEntry dryRun s (p, i)).out = s.out ++ [p]) := by
  have hstep : processEntry dryRun s (p, i) =
      (if (leafStep dryRun s p i).err.isSome then leafStep dryRun s p i
       else { leafStep dryRun s p i with
                removed := p :: (leafStep dryRun s p i).removed
                err := some "root dir path does not occur" }) := by
    simp only [processEntry]
    split
    · rfl
    · rw [if_pos]
      simp [hc]
  constructor
  · rw [hstep]
    split
    · assumption
    · rfl
  · intro hdry hm hd
    subst hdry
    have hleaf : leafStep false s p i =
        { s with fs := s.fs.removeAll p, out := s.out ++ [p] } := by
      rw [leafStep, if_neg (by simp), if_pos hm, if_pos hd]
    rw [hstep, hleaf]
    rw [if_neg (by rw [herr]; simp)]
    exact ⟨rfl, rfl⟩

/-- Witness for C4's theorem: the entry `/x` with root `/q` over the
filesystem holding only `/x`; the run errors, yet `/x` is deleted and
reported. -/
theorem contains_check_aborts_witness :
    (RunState.mk fsStray [] [] none).err = none ∧
    charListContains (pathChars ["x"]) (pathChars ["q"]) = false ∧
    (processEntry false ⟨fsStray, [], [], none⟩ (["x"], ⟨["q"], true⟩)).err.isSome = true ∧
    (processEntry false ⟨fsStray, [], [], none⟩ (["x"], ⟨["q"], true⟩)).fs =
      fsStray.removeAll ["x"] ∧
    (processEntry false ⟨fsStray, [], [], none⟩ (["x"], ⟨["q"], true⟩)).out =
      [] ++ [["x"]] := by
  obtain ⟨h1, h2⟩ :=
    contains_check_aborts false ⟨fsStray, [], [], none⟩ ["x"] ⟨["q"], true⟩ rfl (by decide)
  obtain ⟨h3, h4⟩ := h2 rfl (by decide) rfl
  exact ⟨rfl, by decide, h1, h3, h4⟩

/-- Claim C5: for an existing directory, `removeDirIfEmpty` removes it
precisely when its listing -- filtered through the virtual removed set
in dry-run mode -- is empty; on removal it records the directory in the
removed set in both modes and mutates the filesystem only in real mode;
otherwise it reports "not removed" and leaves the state unchanged. -/
theorem removeDirIfEmpty_spec (dryRun : Bool) (s : RunState) (dir : Path)
    (hmem : s.fs.mem dir) (hnf : dir ∉ s.fs.files) :
    ((removeDirIfEmpty dryRun s dir).1 = true ↔ effListing dryRun s dir = []) ∧
    ((removeDirIfEmpty dryRun s dir).1 = true →
      (removeDirIfEmpty dryRun s dir).2 =
        { s with fs := if dryRun then s.fs else s.fs.removeAll dir
                 removed := dir :: s.removed }) ∧
    ((removeDirIfEmpty dryRun s dir).1 = false →
      (removeDirIfEmpty dryRun s dir).2 = s) := by
  rw [removeDirIfEmpty, if_neg (not_not_intro hmem), if_neg hnf]
  split
  · rename_i he
    exact ⟨⟨fun _ => List.isEmpty_iff.mp he, fun _ => rfl⟩, fun _ => rfl,
      fun hf => absurd hf (by simp)⟩
  · rename_i he
    refine ⟨⟨fun h => absurd h (by simp), fun h => absurd ?_ he⟩,
      fun h => absurd h (by simp), fun _ => rfl⟩
    rw [h]
    rfl

/-- Witness for C5's theorem: the empty directory `/d` exists, its
listing is empty, and the real-mode call removes it, records it, and
deletes it from the filesystem. -/
theorem removeDirIfEmpty_spec_witness :
    (FS.mk [] [[], ["d"]]).mem ["d"] ∧ ["d"] ∉ (FS.mk [] [[], ["d"]]).files ∧
    ((removeDirIfEmpty false ⟨⟨[], [[], ["d"]]⟩, [], [], none⟩ ["d"]).1 = true ↔
      effListing false ⟨⟨[], [[], ["d"]]⟩, [], [], none⟩ ["d"] = []) ∧
    ((removeDirIfEmpty false ⟨⟨[], [[], ["d"]]⟩, [], [], none⟩ ["d"]).1 = true →
      (removeDirIfEmpty false ⟨⟨[], [[], ["d"]]⟩, [], [], none⟩ ["d"]).2 =
        { RunState.mk ⟨[], [[], ["d"]]⟩ [] [] none with
            fs := if false then FS.mk [] [[], ["d"]]
                  else (FS.mk [] [[], ["d"]]).removeAll ["d"]
            removed := ["d"] :: [] }) := by
  obtain ⟨h1, h2, _⟩ :=
    removeDirIfEmpty_spec false ⟨⟨[], [[], ["d"]]⟩, [], [], none⟩ ["d"]
      (by decide) (by decide)
  exact ⟨by decide, by decide, h1, h2⟩

/-- Claim C6, counterexample: on the two-entry plan with nested roots
(`/r/a/f1` under `/r`, `/r/a/g/f2` under `/r/a/g`), the first real run
finishes without error leaving the empty directory `/r/a` behind, and a
second real run on that state again finishes without error but deletes
two further paths (`/r/a` and `/r`), so the second run does not "remove
nothing further". -/
theorem idempotence_counterexample :
    (runExecute false fsTwoRoots planTwoRoots).err = none ∧
    (runExecute false (runExecute false fsTwoRoots planTwoRoots).fs planTwoRoots).err = none ∧
    (runExecute false (runExecute false fsTwoRoots planTwoRoots).fs planTwoRoots).out =
      [["r", "a"], ["r"]] := by
  decide

/-- Claim C6 (amended): full idempotence fails (a second real run can
remove directories that nested roots left empty, see the
counterexample), but if the first real run over a well-formed
filesystem succeeds, the second real run with the same plan also
returns no error and never re-deletes any plan path. -/
theorem second_run_no_error (fs : FS) (plan : List (Path × PathInfo)) (hwf : WF fs)
    (h1 : (runExecute false fs plan).err = none) :
    (runExecute false (runExecute false fs plan).fs plan).err = none ∧
    ∀ e ∈ plan, e.1 ∉ (runExecute false (runExecute false fs plan).fs plan).out := by
  have hwf1 : WF (runExecute false fs plan).fs :=
    WF_runFrom false (sortPlan plan) ⟨fs, [], [], none⟩ hwf
  have hfacts := runFrom_ok_facts (sortPlan plan) ⟨fs, [], [], none⟩ hwf rfl h1
  constructor
  · exact runFrom_absent_ok (sortPlan plan)
      ⟨(runExecute false fs plan).fs, [], [], none⟩
      (runExecute false fs plan).fs hwf1 rfl (FSle.rfl _)
      (fun e he => hfacts e he)
  · intro e he hmem
    rcases runFrom_out_mem (sortPlan plan)
      ⟨(runExecute false fs plan).fs, [], [], none⟩ e.1 hmem with hx | hx
    · cases hx
    · exact (hfacts e ((sortPlan_perm plan).mem_iff.mpr he)).2.1 hx

/-- Witness for C6's amended theorem on the two-root scenario: the
filesystem is well-formed, the first real run succeeds, so the second
errors nothing and re-deletes neither plan path. -/
theorem second_run_no_error_witness :
    WF fsTwoRoots ∧ (runExecute false fsTwoRoots planTwoRoots).err = none ∧
    ((runExecute false (runExecute false fsTwoRoots planTwoRoots).fs
        planTwoRoots).err = none ∧
      ∀ e ∈ planTwoRoots, e.1 ∉ (runExecute false
        (runExecute false fsTwoRoots planTwoRoots).fs planTwoRoots).out) :=
  ⟨by decide, by decide,
    second_run_no_error fsTwoRoots planTwoRoots (by decide) (by decide)⟩

/-- Claim C7: when the bin output root cannot be read because it does
not exist, `cleanBinOutput` returns an empty result and no error, and
when a distribution output directory cannot be read because it does not
exist, the distribution contributes no plan entries (it is skipped
silently). -/
theorem notFound_absorbed (fs : FS) (outputDir distDir : Path)
    (products : List (String × List OSArch)) (matchers : List (String → Bool))
    (h1 : ¬ fs.mem outputDir) (h2 : ¬ fs.mem distDir) :
    cleanBinOutput fs outputDir products = .ok [] ∧
      distClean fs distDir matchers = [] := by
  rw [FS.mem] at h1 h2
  push_neg at h1 h2
  rw [cleanBinOutput, distClean, if_pos h1.2, if_pos h2.2]
  exact ⟨rfl, rfl⟩

/-- Witness for C7's theorem at a concrete input: the empty filesystem
contains neither `/out` nor `/dist`, and both planners return empty. -/
theorem notFound_absorbed_witness :
    ¬ (FS.mk [] []).mem ["out"] ∧ ¬ (FS.mk [] []).mem ["dist"] ∧
    cleanBinOutput ⟨[], []⟩ ["out"] [] = .ok [] ∧
      distClean ⟨[], []⟩ ["dist"] [] = [] := by
  refine ⟨by decide, by decide, ?_⟩
  exact notFound_absorbed ⟨[], []⟩ ["out"] ["dist"] [] [] (by decide) (by decide)

/-- Claim C8: provided `os.Stat` on the declared artifact path reports
either success or a not-exist error, `GenerateDistArtifacts` succeeds
exactly when the path exists and is not a directory; it returns the
missing-output error when the path does not exist and the is-a-directory
error when the path is a directory.  (The artifact count is always one,
so the count check never fires; see the singleton theorem.) -/
theorem generateDistArtifacts_spec (ext rendered : String) (stat : String → StatResult)
    (h : stat ((manualDister.Artifacts ext rendered).headD "") ≠ .otherErr) :
    (manualDister.GenerateDistArtifacts ext rendered stat = some (.ok ()) ↔
      stat ((manualDister.Artifacts ext rendered).headD "") = .ok false) ∧
    (stat ((manualDister.Artifacts ext rendered).headD "") = .notExist →
      manualDister.GenerateDistArtifacts ext rendered stat =
        some (.error "expected output does not exist")) ∧
    (stat ((manualDister.Artifacts ext rendered).headD "") = .ok true →
      manualDister.GenerateDistArtifacts ext rendered stat =
        some (.error "output is a directory")) := by
  rw [manualDister.GenerateDistArtifacts]
  rcases hs : stat ((manualDister.Artifacts ext rendered).headD "") with d | _ | _
  · rcases d with _ | _ <;>
      simp [manualDister.Artifacts, hs]
  · simp [manualDister.Artifacts, hs]
  · exact absurd hs h

/-- Witness for C8's theorem: with extension `"tgz"`, rendered name
`"p-1.0"` and a stat reporting an existing regular file, the function
succeeds. -/
theorem generateDistArtifacts_spec_witness :
    (fun _ : String => StatResult.ok false)
        ((manualDister.Artifacts "tgz" "p-1.0").headD "") ≠ .otherErr ∧
    manualDister.GenerateDistArtifacts "tgz" "p-1.0" (fun _ => .ok false) =
      some (.ok ()) := by
  refine ⟨by decide, ?_⟩
  exact (generateDistArtifacts_spec "tgz" "p-1.0" (fun _ => .ok false)
    (by decide)).1.mpr rfl

/-- Claim C9: `manualDister.Artifacts` always returns exactly one
element, so the "manual distribution must produce a single artifact"
error branch of `GenerateDistArtifacts` is unreachable: no outcome of
the stat ever produces that error. -/
theorem artifacts_singleton (ext rendered : String) (stat : String → StatResult) :
    (manualDister.Artifacts ext rendered).length = 1 ∧
    manualDister.GenerateDistArtifacts ext rendered stat ≠
      some (.error "manual distribution must produce a single artifact") := by
  refine ⟨rfl, ?_⟩
  rw [manualDister.GenerateDistArtifacts]
  rcases stat ((manualDister.Artifacts ext rendered).headD "") with d | _ | _
  · rcases d with _ | _ <;> simp [manualDister.Artifacts]
  · simp [manualDister.Artifacts]
  · simp [manualDister.Artifacts]

/-- Claim C10: when `os.Stat` on the artifact path fails with an error
that is not an is-not-exist error (for example, permission denied), the
Go code reaches `fi.IsDir()` with `fi == nil` and panics -- modelled
here by the `none` result -- so the claimed safety property fails at
this input. -/
theorem generateDistArtifacts_nil_deref :
    manualDister.GenerateDistArtifacts "tgz" "foo-1.0" (fun _ => .otherErr) = none := by
  rfl

end Distgo
